import Mathlib

/-!
Verification of the jlearn content-audit tool (the standalone audit script:
schema validation of unit JSON documents, content scanners, manifest
cross-reference, and the final verdict).

The script is dynamically-typed JavaScript walking parsed JSON.  We embed the
parsed-document universe as an inductive `JSON` type (numbers as exact
rationals, which faithfully represent every numeric literal the checks
compare), and translate each audit function into a pure Lean function
returning the list of `Issue` records it would push, in push order.
JavaScript-specific conversions (truthiness, `undefined`/`null` distinction
via `Option JSON`, string conversion for template interpolation and property
keys) are modelled by explicit helper functions.  Property access on a
non-object yields `none` (JavaScript yields `undefined` for primitives;
access on `null`/`undefined` would throw, which no theorem below relies on).
-/

/-- A recorded finding, mirroring `addIssue(file, sectionType, problem)`. -/
structure Issue where
  file : String
  sectionType : String
  problem : String
deriving DecidableEq, Repr

/-- Parsed JSON values.  Numbers are exact rationals. -/
inductive JSON where
  | str  (s : String)
  | num  (q : ℚ)
  | bool (b : Bool)
  | null
  | arr  (xs : List JSON)
  | obj  (fields : List (String × JSON))

namespace JSON

/-- Property access `o[k]`: first binding wins (parsed JSON has unique keys);
`none` models JavaScript `undefined`. -/
def get : JSON → String → Option JSON
  | .obj fields, k => lookupKey fields k
  | _, _ => none
where
  lookupKey : List (String × JSON) → String → Option JSON
    | [], _ => none
    | (k, v) :: fs, key => if k == key then some v else lookupKey fs key

/-- JavaScript truthiness of a value. -/
def truthyV : JSON → Bool
  | .str s => s != ""
  | .num q => q != 0
  | .bool b => b
  | .null => false
  | .arr _ => true
  | .obj _ => true

end JSON

/-- Truthiness of a possibly-absent value (`undefined` is falsy). -/
def truthy : Option JSON → Bool
  | none => false
  | some v => v.truthyV

/-- The check `x === undefined || x === null`, negated: the field is present
with a non-null value. -/
def present : Option JSON → Bool
  | none => false
  | some .null => false
  | some _ => true

/-- The check `x === ''` (strict equality with the empty string). -/
def isEmptyStr : Option JSON → Bool
  | some (.str "") => true
  | _ => false

/-- Value-level `x === ''`. -/
def isEmptyStrV : JSON → Bool
  | .str "" => true
  | _ => false

/-- JavaScript `a || b` where `a` may be an absent property: returns `a`'s
value when truthy, otherwise `b`. -/
def jsOr (a : Option JSON) (b : JSON) : JSON :=
  match a with
  | some v => if v.truthyV then v else b
  | none => b

/-- JavaScript string conversion as used by template interpolation and
property keys (`String(v)`).  Array join and non-integer number formatting
are approximated (the audited content only interpolates strings and
integers). -/
def jsRepr : JSON → String
  | .str s => s
  | .num q => if q.den = 1 then toString q.num else toString q
  | .bool b => if b then "true" else "false"
  | .null => "null"
  | .arr xs => reprList xs
  | .obj _ => "[object Object]"
where
  reprList : List JSON → String
    | [] => ""
    | [x] => jsRepr x
    | x :: xs => jsRepr x ++ "," ++ reprList xs

/-- Character-list substring occurrence, modelling `String.prototype.includes`. -/
def charsInclude (pat : List Char) : List Char → Bool
  | [] => pat.isEmpty
  | c :: cs => pat.isPrefixOf (c :: cs) || charsInclude pat cs

/-- The call `s.includes(pat)`. -/
def jsIncludes (s pat : String) : Bool :=
  charsInclude pat.data s.data

/-- The call `s.startsWith(pat)`. -/
def jsStartsWith (s pat : String) : Bool :=
  pat.data.isPrefixOf s.data

/-- Recursive empty-string finder: `findEmptyStrings(obj, currentPath,
results)` pushes onto `results` the dotted/indexed path of every string value
that is exactly empty, and returns the grown results list. -/
def findEmptyStrings : JSON → String → List String → List String
  | .str s, p, res => if s = "" then res ++ [p] else res
  | .num _, _, res => res
  | .bool _, _, res => res
  | .null, _, res => res
  | .arr xs, p, res => goArr xs p 0 res
  | .obj fs, p, res => goObj fs p res
where
  goArr : List JSON → String → Nat → List String → List String
    | [], _, _, res => res
    | x :: xs, p, i, res =>
        goArr xs p (i + 1) (findEmptyStrings x (p ++ "[" ++ toString i ++ "]") res)
  goObj : List (String × JSON) → String → List String → List String
    | [], _, res => res
    | (k, v) :: fs, p, res =>
        goObj fs p (findEmptyStrings v (p ++ "." ++ k) res)

/-- Recursive forbidden-name finder: pushes `(path, matched)` for every string
containing one of the two disallowed substrings, `matched` being the first of
the two that occurs. -/
def findForbiddenNames : JSON → String → List (String × String) → List (String × String)
  | .str s, p, res =>
      if jsIncludes s "黑木" || jsIncludes s "黒木" then
        res ++ [(p, if jsIncludes s "黑木" then "黑木" else "黒木")]
      else res
  | .num _, _, res => res
  | .bool _, _, res => res
  | .null, _, res => res
  | .arr xs, p, res => goArr xs p 0 res
  | .obj fs, p, res => goObj fs p res
where
  goArr : List JSON → String → Nat → List (String × String) → List (String × String)
    | [], _, _, res => res
    | x :: xs, p, i, res =>
        goArr xs p (i + 1) (findForbiddenNames x (p ++ "[" ++ toString i ++ "]") res)
  goObj : List (String × JSON) → String → List (String × String) → List (String × String)
    | [], _, res => res
    | (k, v) :: fs, p, res =>
        goObj fs p (findForbiddenNames v (p ++ "." ++ k) res)

/-- Prefix used by every section validator:
`sections[<idx>] (<kind> "<section.title || ''>")`. -/
def secPfx (kind : String) (sec : JSON) (idx : Nat) : String :=
  "sections[" ++ toString idx ++ "] (" ++ kind ++ " \"" ++
    jsRepr (jsOr (sec.get "title") (.str "")) ++ "\")"

def vocabRequiredFields : List String :=
  ["japanese", "reading", "romaji", "chinese", "example", "exampleChinese"]

/-- Interpolated context `${item.japanese || '?'}`. -/
def vocabCtx (item : JSON) : String :=
  jsRepr (jsOr (item.get "japanese") (.str "?"))

def mkVocabMissing (filePath pfx : String) (i : Nat) (field ctx : String) : Issue :=
  ⟨filePath, "vocab",
    pfx ++ ": items[" ++ toString i ++ "] missing \"" ++ field ++ "\" (japanese: \"" ++ ctx ++ "\")"⟩

def vocabFieldLoop (filePath pfx : String) (i : Nat) (item : JSON) : List String → List Issue
  | [] => []
  | f :: fs =>
      (if present (item.get f) then [] else [mkVocabMissing filePath pfx i f (vocabCtx item)])
      ++ vocabFieldLoop filePath pfx i item fs

def vocabItemLoop (filePath pfx : String) : Nat → List JSON → List Issue
  | _, [] => []
  | i, item :: rest =>
      vocabFieldLoop filePath pfx i item vocabRequiredFields
      ++ vocabItemLoop filePath pfx (i + 1) rest

def checkVocab (sec : JSON) (filePath : String) (sectionIndex : Nat) : List Issue :=
  let pfx := secPfx "vocab" sec sectionIndex
  let items := sec.get "items"
  if truthy items then
    match items with
    | some (.arr l) =>
        if l.length = 0 then [⟨filePath, "vocab", pfx ++ ": \"items\" array is empty"⟩]
        else vocabItemLoop filePath pfx 0 l
    | _ => [⟨filePath, "vocab", pfx ++ ": \"items\" is not an array"⟩]
  else [⟨filePath, "vocab", pfx ++ ": missing \"items\" array"⟩]

def dialogueLineFields : List String := ["speaker", "japanese", "chinese"]

def mkDialogueMissing (filePath pfx : String) (i : Nat) (field : String) : Issue :=
  ⟨filePath, "dialogue", pfx ++ ": lines[" ++ toString i ++ "] missing \"" ++ field ++ "\""⟩

def dialogueFieldLoop (filePath pfx : String) (i : Nat) (line : JSON) : List String → List Issue
  | [] => []
  | f :: fs =>
      (if present (line.get f) then [] else [mkDialogueMissing filePath pfx i f])
      ++ dialogueFieldLoop filePath pfx i line fs

def dialogueLineLoop (filePath pfx : String) : Nat → List JSON → List Issue
  | _, [] => []
  | i, line :: rest =>
      dialogueFieldLoop filePath pfx i line dialogueLineFields
      ++ dialogueLineLoop filePath pfx (i + 1) rest

def checkDialogue (sec : JSON) (filePath : String) (sectionIndex : Nat) : List Issue :=
  let pfx := secPfx "dialogue" sec sectionIndex
  let scene := sec.get "scene"
  (if !(truthy scene) && !(isEmptyStr scene) then
    [⟨filePath, "dialogue", pfx ++ ": missing \"scene\""⟩] else [])
  ++ (if isEmptyStr scene then
    [⟨filePath, "dialogue", pfx ++ ": \"scene\" is an empty string"⟩] else [])
  ++ (let lns := sec.get "lines"
      if truthy lns then
        match lns with
        | some (.arr l) =>
            if l.length = 0 then [⟨filePath, "dialogue", pfx ++ ": \"lines\" array is empty"⟩]
            else dialogueLineLoop filePath pfx 0 l
        | _ => [⟨filePath, "dialogue", pfx ++ ": \"lines\" is not an array"⟩]
      else [⟨filePath, "dialogue", pfx ++ ": missing \"lines\" array"⟩])

def grammarPointFields : List String := ["pattern", "meaning", "structure"]

/-- Interpolated context `${pt.pattern || '?'}`. -/
def grammarCtx (pt : JSON) : String :=
  jsRepr (jsOr (pt.get "pattern") (.str "?"))

def mkGrammarMissing (filePath pfx : String) (i : Nat) (field ctx : String) : Issue :=
  ⟨filePath, "grammar",
    pfx ++ ": points[" ++ toString i ++ "] missing \"" ++ field ++ "\" (pattern: \"" ++ ctx ++ "\")"⟩

def grammarFieldLoop (filePath pfx : String) (i : Nat) (pt : JSON) : List String → List Issue
  | [] => []
  | f :: fs =>
      (if present (pt.get f) then [] else [mkGrammarMissing filePath pfx i f (grammarCtx pt)])
      ++ grammarFieldLoop filePath pfx i pt fs

def grammarPointIssues (filePath pfx : String) (i : Nat) (pt : JSON) : List Issue :=
  grammarFieldLoop filePath pfx i pt grammarPointFields
  ++ (let ex := pt.get "examples"
      if truthy ex then
        match ex with
        | some (.arr l) =>
            if l.length = 0 then
              [⟨filePath, "grammar",
                pfx ++ ": points[" ++ toString i ++ "] \"examples\" is empty or not an array (pattern: \"" ++ grammarCtx pt ++ "\")"⟩]
            else []
        | _ =>
            [⟨filePath, "grammar",
              pfx ++ ": points[" ++ toString i ++ "] \"examples\" is empty or not an array (pattern: \"" ++ grammarCtx pt ++ "\")"⟩]
      else
        [⟨filePath, "grammar",
          pfx ++ ": points[" ++ toString i ++ "] missing \"examples\" array (pattern: \"" ++ grammarCtx pt ++ "\")"⟩])

def grammarPointLoop (filePath pfx : String) : Nat → List JSON → List Issue
  | _, [] => []
  | i, pt :: rest =>
      grammarPointIssues filePath pfx i pt ++ grammarPointLoop filePath pfx (i + 1) rest

def checkGrammar (sec : JSON) (filePath : String) (sectionIndex : Nat) : List Issue :=
  let pfx := secPfx "grammar" sec sectionIndex
  let points := sec.get "points"
  if truthy points then
    match points with
    | some (.arr l) =>
        if l.length = 0 then [⟨filePath, "grammar", pfx ++ ": \"points\" array is empty"⟩]
        else grammarPointLoop filePath pfx 0 l
    | _ => [⟨filePath, "grammar", pfx ++ ": \"points\" is not an array"⟩]
  else [⟨filePath, "grammar", pfx ++ ": missing \"points\" array"⟩]

def cardRequiredFields : List String := ["japanese", "reading", "romaji", "chinese"]

/-- Interpolated context `${card.japanese || card.front || '?'}`. -/
def cardCtx (card : JSON) : String :=
  jsRepr (jsOr (card.get "japanese") (jsOr (card.get "front") (.str "?")))

def mkLegacyIssue (filePath pfx : String) (i : Nat) : Issue :=
  ⟨filePath, "flashcards",
    pfx ++ ": cards[" ++ toString i ++ "] uses old \"front/back\" format instead of \"japanese/reading/romaji/chinese\""⟩

def mkCardMissing (filePath pfx : String) (i : Nat) (field ctx : String) : Issue :=
  ⟨filePath, "flashcards",
    pfx ++ ": cards[" ++ toString i ++ "] missing \"" ++ field ++ "\" (japanese: \"" ++ ctx ++ "\")"⟩

def cardFieldLoop (filePath pfx : String) (i : Nat) (card : JSON) : List String → List Issue
  | [] => []
  | f :: fs =>
      (if present (card.get f) then [] else [mkCardMissing filePath pfx i f (cardCtx card)])
      ++ cardFieldLoop filePath pfx i card fs

/-- Per-card checks: legacy `front`/`back` detection (`!== undefined`) then the
four current required fields. -/
def cardIssues (filePath pfx : String) (i : Nat) (card : JSON) : List Issue :=
  (if (card.get "front").isSome || (card.get "back").isSome then
    [mkLegacyIssue filePath pfx i] else [])
  ++ cardFieldLoop filePath pfx i card cardRequiredFields

def cardLoop (filePath pfx : String) : Nat → List JSON → List Issue
  | _, [] => []
  | i, card :: rest =>
      cardIssues filePath pfx i card ++ cardLoop filePath pfx (i + 1) rest

/-- The expression `c.japanese || c.front || ''`. -/
def cardKey (card : JSON) : JSON :=
  jsOr (card.get "japanese") (jsOr (card.get "front") (.str ""))

/-- The list `fronts`: keys of all cards, with strictly-empty-string keys
filtered out (`.filter(f => f !== '')`). -/
def frontsOf (cards : List JSON) : List JSON :=
  (cards.map cardKey).filter (fun f => !(isEmptyStrV f))

def mkDupIssue (filePath pfx : String) (v : String) : Issue :=
  ⟨filePath, "flashcards",
    pfx ++ ": DUPLICATE flashcard front/japanese value: \"" ++ v ++ "\""⟩

/-- Property names inherited from `Object.prototype`.  The duplicate loop's
`seen` is the plain object `{}`, so the lookup `seen[f]` consults the
prototype chain, and every inherited property (methods, and the prototype
object for `__proto__`) is truthy. -/
def protoKeys : List String :=
  ["constructor", "hasOwnProperty", "isPrototypeOf", "propertyIsEnumerable",
   "toLocaleString", "toString", "valueOf", "__proto__",
   "__defineGetter__", "__defineSetter__", "__lookupGetter__", "__lookupSetter__"]

/-- The duplicate loop: `seen` holds the string keys on which the lookup
`seen[f]` is truthy — initially the `Object.prototype` property names
(`const seen = {}` inherits them), plus every key assigned so far; a truthy
lookup yields one Issue.  (Assigning `seen["__proto__"] = true` creates no
own property, but that key's inherited lookup is already truthy, so
appending it changes nothing.) -/
def dupScan (filePath pfx : String) : List JSON → List String → List Issue
  | [], _ => []
  | f :: rest, seen =>
      (if seen.contains (jsRepr f) then [mkDupIssue filePath pfx (jsRepr f)] else [])
      ++ dupScan filePath pfx rest (jsRepr f :: seen)

def checkFlashcards (sec : JSON) (filePath : String) (sectionIndex : Nat) : List Issue :=
  let pfx := secPfx "flashcards" sec sectionIndex
  let cards := sec.get "cards"
  if truthy cards then
    match cards with
    | some (.arr l) =>
        if l.length = 0 then [⟨filePath, "flashcards", pfx ++ ": \"cards\" array is empty"⟩]
        else cardLoop filePath pfx 0 l ++ dupScan filePath pfx (frontsOf l) protoKeys
    | _ => [⟨filePath, "flashcards", pfx ++ ": \"cards\" is not an array"⟩]
  else [⟨filePath, "flashcards", pfx ++ ": missing \"cards\" array"⟩]

/-- Common message head `${prefix}: questions[${i}] ` of every quiz issue. -/
def qpre (pfx : String) (i : Nat) : String :=
  pfx ++ ": questions[" ++ toString i ++ "] "

/-- Interpolated context `${q.question || '?'}`. -/
def quizCtx (q : JSON) : String :=
  jsRepr (jsOr (q.get "question") (.str "?"))

def mkNoQuestion (filePath pfx : String) (i : Nat) : Issue :=
  ⟨filePath, "quiz", qpre pfx i ++ "missing \"question\""⟩

def mkNoOptions (filePath pfx : String) (i : Nat) : Issue :=
  ⟨filePath, "quiz", qpre pfx i ++ "missing \"options\""⟩

def mkOptionsNotArray (filePath pfx : String) (i : Nat) : Issue :=
  ⟨filePath, "quiz", qpre pfx i ++ "\"options\" is not an array"⟩

def mkOptionCount (filePath pfx : String) (i n : Nat) (ctx : String) : Issue :=
  ⟨filePath, "quiz",
    qpre pfx i ++ "has " ++ toString n ++ " options (expected 4): \"" ++ ctx ++ "\""⟩

def mkNoCorrect (filePath pfx : String) (i : Nat) : Issue :=
  ⟨filePath, "quiz", qpre pfx i ++ "missing \"correct\""⟩

def mkBadCorrect (filePath pfx : String) (i : Nat) (v ctx : String) : Issue :=
  ⟨filePath, "quiz",
    qpre pfx i ++ "\"correct\" is " ++ v ++ " (expected 0-3): \"" ++ ctx ++ "\""⟩

def mkNoExplanation (filePath pfx : String) (i : Nat) (ctx : String) : Issue :=
  ⟨filePath, "quiz", qpre pfx i ++ "missing \"explanation\": \"" ++ ctx ++ "\""⟩

/-- The `if (!q.question)` block. -/
def quizQuestionCheck (filePath pfx : String) (i : Nat) (q : JSON) : List Issue :=
  if truthy (q.get "question") then [] else [mkNoQuestion filePath pfx i]

/-- The `options` if/else-if chain. -/
def quizOptionsCheck (filePath pfx : String) (i : Nat) (q : JSON) : List Issue :=
  if truthy (q.get "options") then
    match q.get "options" with
    | some (.arr os) =>
        if os.length ≠ 4 then [mkOptionCount filePath pfx i os.length (quizCtx q)] else []
    | _ => [mkOptionsNotArray filePath pfx i]
  else [mkNoOptions filePath pfx i]

/-- The `correct` if/else-if chain: absent or null is reported missing;
otherwise `typeof !== 'number' || < 0 || > 3` is reported out of range. -/
def quizCorrectCheck (filePath pfx : String) (i : Nat) (q : JSON) : List Issue :=
  if present (q.get "correct") then
    match q.get "correct" with
    | some (.num x) =>
        if x < 0 ∨ 3 < x then [mkBadCorrect filePath pfx i (jsRepr (.num x)) (quizCtx q)]
        else []
    | some v => [mkBadCorrect filePath pfx i (jsRepr v) (quizCtx q)]
    | none => []
  else [mkNoCorrect filePath pfx i]

/-- The `if (!q.explanation)` block. -/
def quizExplanationCheck (filePath pfx : String) (i : Nat) (q : JSON) : List Issue :=
  if truthy (q.get "explanation") then [] else [mkNoExplanation filePath pfx i (quizCtx q)]

/-- All checks of one quiz question, in source (push) order. -/
def quizQuestionIssues (filePath pfx : String) (i : Nat) (q : JSON) : List Issue :=
  quizQuestionCheck filePath pfx i q
  ++ quizOptionsCheck filePath pfx i q
  ++ quizCorrectCheck filePath pfx i q
  ++ quizExplanationCheck filePath pfx i q

def questionLoop (filePath pfx : String) : Nat → List JSON → List Issue
  | _, [] => []
  | i, q :: rest =>
      quizQuestionIssues filePath pfx i q ++ questionLoop filePath pfx (i + 1) rest

def checkQuiz (sec : JSON) (filePath : String) (sectionIndex : Nat) : List Issue :=
  let pfx := secPfx "quiz" sec sectionIndex
  let questions := sec.get "questions"
  if truthy questions then
    match questions with
    | some (.arr l) =>
        if l.length = 0 then [⟨filePath, "quiz", pfx ++ ": \"questions\" array is empty"⟩]
        else questionLoop filePath pfx 0 l
    | _ => [⟨filePath, "quiz", pfx ++ ": \"questions\" is not an array"⟩]
  else [⟨filePath, "quiz", pfx ++ ": missing \"questions\" array"⟩]

def checkCulture (sec : JSON) (filePath : String) (sectionIndex : Nat) : List Issue :=
  let pfx := secPfx "culture" sec sectionIndex
  let content := sec.get "content"
  (if !(truthy content) && !(isEmptyStr content) then
    [⟨filePath, "culture", pfx ++ ": missing \"content\""⟩] else [])
  ++ (if isEmptyStr content then
    [⟨filePath, "culture", pfx ++ ": \"content\" is an empty string"⟩] else [])

def mkMissingTop (rel f : String) : Issue :=
  ⟨rel, "general", "Missing top-level field: \"" ++ f ++ "\""⟩

/-- The loop over `['title', 'intro', 'estimatedTime', 'sections']`. -/
def topPresenceLoop (rel : String) (data : JSON) : List String → List Issue
  | [] => []
  | f :: fs =>
      (if present (data.get f) then [] else [mkMissingTop rel f])
      ++ topPresenceLoop rel data fs

def mkEmptyTop (rel f : String) : Issue :=
  ⟨rel, "general", "\"" ++ f ++ "\" is an empty string"⟩

/-- General top-level field checks of `auditUnit` (presence of the four
fields, then the three `=== ''` checks). -/
def topFieldIssues (rel : String) (data : JSON) : List Issue :=
  topPresenceLoop rel data ["title", "intro", "estimatedTime", "sections"]
  ++ (if isEmptyStr (data.get "title") then [mkEmptyTop rel "title"] else [])
  ++ (if isEmptyStr (data.get "intro") then [mkEmptyTop rel "intro"] else [])
  ++ (if isEmptyStr (data.get "estimatedTime") then [mkEmptyTop rel "estimatedTime"] else [])

def mkNoType (rel : String) (idx : Nat) : Issue :=
  ⟨rel, "general", "sections[" ++ toString idx ++ "] missing \"type\""⟩

def mkUnknownType (rel : String) (idx : Nat) (v : String) : Issue :=
  ⟨rel, "general", "sections[" ++ toString idx ++ "] has unknown type: \"" ++ v ++ "\""⟩

/-- Per-section dispatch of `auditUnit`: falsy `type` is reported as missing;
otherwise the `switch` on the six known tags runs, with a default
unknown-type Issue.  (The six tag strings are truthy, so matching them first
is equivalent to the source's falsy check followed by the `switch`.) -/
def checkSection (rel : String) (idx : Nat) (sec : JSON) : List Issue :=
  match sec.get "type" with
  | some (.str "vocab") => checkVocab sec rel idx
  | some (.str "dialogue") => checkDialogue sec rel idx
  | some (.str "grammar") => checkGrammar sec rel idx
  | some (.str "flashcards") => checkFlashcards sec rel idx
  | some (.str "quiz") => checkQuiz sec rel idx
  | some (.str "culture") => checkCulture sec rel idx
  | some v => if v.truthyV then [mkUnknownType rel idx (jsRepr v)] else [mkNoType rel idx]
  | none => [mkNoType rel idx]

def sectionLoop (rel : String) : Nat → List JSON → List Issue
  | _, [] => []
  | idx, s :: rest => checkSection rel idx s ++ sectionLoop rel (idx + 1) rest

def requiredSections : List String :=
  ["flashcards", "quiz", "vocab", "dialogue", "grammar"]

/-- Whether some section's `type` is exactly the string `req` (the
`sectionTypes.has(req)` test). -/
def hasSectionType (sections : List JSON) (req : String) : Bool :=
  sections.any fun s =>
    match s.get "type" with
    | some (.str t) => t == req
    | _ => false

def mkMissingSection (rel req : String) : Issue :=
  ⟨rel, "missing-section", "Unit is missing a \"" ++ req ++ "\" section"⟩

def missingSectionLoop (rel : String) (sections : List JSON) : List String → List Issue
  | [] => []
  | req :: rest =>
      (if hasSectionType sections req then [] else [mkMissingSection rel req])
      ++ missingSectionLoop rel sections rest

def mkForbiddenIssue (rel path matched : String) : Issue :=
  ⟨rel, "forbidden-name", "Found forbidden name \"" ++ matched ++ "\" at " ++ path⟩

def forbiddenIssues (rel : String) (data : JSON) : List Issue :=
  (findForbiddenNames data "root" []).map fun r => mkForbiddenIssue rel r.1 r.2

def mkEmptyIssue (rel p : String) : Issue :=
  ⟨rel, "empty-string", "Empty string at " ++ p⟩

/-- Empty-string findings kept by `auditUnit`: only paths that start with
`root.sections` are reported. -/
def emptyStringIssues (rel : String) (data : JSON) : List Issue :=
  ((findEmptyStrings data "root" []).filter fun p => jsStartsWith p "root.sections").map
    (mkEmptyIssue rel)

def ccIssue (rel : String) : Issue :=
  ⟨rel, "general", "\"sections\" is missing or not an array — cannot continue checking this unit"⟩

def mkEmptySections (rel : String) : Issue :=
  ⟨rel, "general", "\"sections\" array is empty"⟩

/-- Audit of one successfully parsed unit document (the body of `auditUnit`
after `JSON.parse`): general fields, early return when `sections` is unusable
or empty, per-section validators, required-section check, then the two
content scanners. -/
def auditUnit (rel : String) (data : JSON) : List Issue :=
  match data.get "sections" with
  | some (.arr ss) =>
      if ss.length = 0 then topFieldIssues rel data ++ [mkEmptySections rel]
      else
        topFieldIssues rel data ++ sectionLoop rel 0 ss
            ++ missingSectionLoop rel ss requiredSections
            ++ forbiddenIssues rel data
            ++ emptyStringIssues rel data
  | _ => topFieldIssues rel data ++ [ccIssue rel]

/-- Shape test used to state when `auditUnit` takes its early-return branch:
`data.sections && Array.isArray(data.sections)`. -/
def isArrOpt : Option JSON → Bool
  | some (.arr _) => true
  | _ => false

/-- Final verdict of the run. -/
inductive Verdict where
  | pass
  | fail
deriving DecidableEq, Repr

/-- The computation `issues.length + crossIssues`. -/
def totalProblems (issues : List Issue) (crossIssues : Nat) : Nat :=
  issues.length + crossIssues

/-- The final `VERDICT: PASS` / `VERDICT: FAIL` decision. -/
def finalVerdict (issues : List Issue) (crossIssues : Nat) : Verdict :=
  if totalProblems issues crossIssues = 0 then .pass else .fail

/-- Key `ch<chapterId>/<unitId>` shared by both sides of the
cross-reference.  Manifest references are the `(chapterId, unitId)` pairs
extracted by `parseChaptersTsRefs`; discovered files are represented by the
same pairs, their on-disk path being `ch<N>/unit<M>.json` with the numeric
chapter id `N` (the discovery regexes only admit such names). -/
def pairKey (r : Nat × String) : String :=
  "ch" ++ toString r.1 ++ "/" ++ r.2

/-- The Set of keys built from a list of `(chapterId, unitId)` pairs. -/
def keySet (l : List (Nat × String)) : Finset String :=
  (l.map pairKey).toFinset

/-- Number of `[MISSING FILE]` lines: manifest keys whose file key is absent. -/
def missingFileCount (tsRefs actualFiles : List (Nat × String)) : Nat :=
  (keySet tsRefs \ keySet actualFiles).card

/-- Number of `[ORPHAN FILE]` lines: file keys absent from the manifest. -/
def orphanFileCount (tsRefs actualFiles : List (Nat × String)) : Nat :=
  (keySet actualFiles \ keySet tsRefs).card

/-- The `crossIssues` counter returned by `crossReferenceChapters`. -/
def crossIssueCount (tsRefs actualFiles : List (Nat × String)) : Nat :=
  missingFileCount tsRefs actualFiles + orphanFileCount tsRefs actualFiles

/-- The cross-reference `RESULT: PASS` line condition (`crossIssues === 0`). -/
def crossPass (tsRefs actualFiles : List (Nat × String)) : Bool :=
  crossIssueCount tsRefs actualFiles = 0

/-- Path element of the dotted/indexed paths built by the scanners: an array
index or an object key. -/
inductive PathElem where
  | idx (i : Nat)
  | key (k : String)
deriving DecidableEq, Repr

/-- Reference semantics for the scanners (from the spec's wording): the value
reached from `j` by following a path, `none` when the path does not exist. -/
def valueAt : List PathElem → JSON → Option JSON
  | [], j => some j
  | .idx i :: rest, .arr xs =>
      match xs.get? i with
      | some x => valueAt rest x
      | none => none
  | .key k :: rest, .obj fs =>
      match JSON.get.lookupKey fs k with
      | some v => valueAt rest v
      | none => none
  | _, _ => none

/-- The dotted/indexed rendering of a path, as the scanners build it. -/
def renderPath (base : String) : List PathElem → String
  | [] => base
  | .idx i :: rest => renderPath (base ++ "[" ++ toString i ++ "]") rest
  | .key k :: rest => renderPath (base ++ "." ++ k) rest

/-- Whether a path lies inside the `sections` subtree of a document
(spec wording: located under the `sections` subtree). -/
def underSections : List PathElem → Bool
  | .key "sections" :: _ => true
  | _ => false

/-- Pairwise-distinct strings. -/
def nodupStr : List String → Bool
  | [] => true
  | s :: rest => !(rest.contains s) && nodupStr rest

/-- Every object in the tree has pairwise-distinct keys — always true of the
output of `JSON.parse`, which keeps one binding per key. -/
def nodupKeys : JSON → Bool
  | .str _ => true
  | .num _ => true
  | .bool _ => true
  | .null => true
  | .arr xs => goA xs
  | .obj fs => nodupStr (fs.map Prod.fst) && goO fs
where
  goA : List JSON → Bool
    | [] => true
    | x :: xs => nodupKeys x && goA xs
  goO : List (String × JSON) → Bool
    | [] => true
    | (_, v) :: fs => nodupKeys v && goO fs

/-- The field is a non-empty string. -/
def nonEmptyStrOpt : Option JSON → Bool
  | some (.str s) => s != ""
  | _ => false

/-- No string value anywhere in the tree is empty. -/
def noEmptyStrings : JSON → Bool
  | .str s => s != ""
  | .num _ => true
  | .bool _ => true
  | .null => true
  | .arr xs => goA xs
  | .obj fs => goO fs
where
  goA : List JSON → Bool
    | [] => true
    | x :: xs => noEmptyStrings x && goA xs
  goO : List (String × JSON) → Bool
    | [] => true
    | (_, v) :: fs => noEmptyStrings v && goO fs

/-- No string value anywhere in the tree contains a forbidden substring. -/
def noForbiddenNames : JSON → Bool
  | .str s => !(jsIncludes s "黑木") && !(jsIncludes s "黒木")
  | .num _ => true
  | .bool _ => true
  | .null => true
  | .arr xs => goA xs
  | .obj fs => goO fs
where
  goA : List JSON → Bool
    | [] => true
    | x :: xs => noForbiddenNames x && goA xs
  goO : List (String × JSON) → Bool
    | [] => true
    | (_, v) :: fs => noForbiddenNames v && goO fs

/-- The four vocab fields that §3 of the spec makes mandatory. -/
def vocabCoreFields : List String := ["japanese", "reading", "romaji", "chinese"]

/-- Vocab item as the audit script actually requires it: all six fields
(including `example` and `exampleChinese`) present and non-null. -/
def wfVocabItemCode (item : JSON) : Bool :=
  vocabRequiredFields.all fun f => present (item.get f)

/-- Modelled from the spec: §3's VocabItem invariant — the four core fields
mandatory, `example` and `exampleChinese` optional. -/
def wfVocabItemSpec (item : JSON) : Bool :=
  vocabCoreFields.all fun f => present (item.get f)

def wfVocabWith (itemOk : JSON → Bool) (s : JSON) : Bool :=
  match s.get "items" with
  | some (.arr l) => !l.isEmpty && l.all itemOk
  | _ => false

def wfDialogueLine (line : JSON) : Bool :=
  dialogueLineFields.all fun f => present (line.get f)

def wfDialogue (s : JSON) : Bool :=
  nonEmptyStrOpt (s.get "scene") &&
  (match s.get "lines" with
   | some (.arr l) => !l.isEmpty && l.all wfDialogueLine
   | _ => false)

def wfGrammarPoint (pt : JSON) : Bool :=
  grammarPointFields.all (fun f => present (pt.get f)) &&
  (match pt.get "examples" with
   | some (.arr l) => !l.isEmpty
   | _ => false)

def wfGrammar (s : JSON) : Bool :=
  match s.get "points" with
  | some (.arr l) => !l.isEmpty && l.all wfGrammarPoint
  | _ => false

/-- A flashcard in the current format: no legacy fields, the four fields
present, `japanese` a non-empty string. -/
def wfCard (card : JSON) : Bool :=
  (card.get "front").isNone && (card.get "back").isNone &&
  nonEmptyStrOpt (card.get "japanese") &&
  cardRequiredFields.all fun f => present (card.get f)

/-- The `japanese` string of a card (used to state the no-duplicates
invariant). -/
def cardJapaneseOf (card : JSON) : String :=
  match card.get "japanese" with
  | some (.str s) => s
  | _ => ""

def wfFlashcards (s : JSON) : Bool :=
  match s.get "cards" with
  | some (.arr l) =>
      !l.isEmpty && l.all wfCard && nodupStr (l.map cardJapaneseOf) &&
      l.all fun c => !(protoKeys.contains (cardJapaneseOf c))
  | _ => false

def wfQuizQuestion (q : JSON) : Bool :=
  nonEmptyStrOpt (q.get "question") &&
  (match q.get "options" with
   | some (.arr os) => os.length == 4
   | _ => false) &&
  (match q.get "correct" with
   | some (.num x) => decide (x = 0 ∨ x = 1 ∨ x = 2 ∨ x = 3)
   | _ => false) &&
  nonEmptyStrOpt (q.get "explanation")

def wfQuiz (s : JSON) : Bool :=
  match s.get "questions" with
  | some (.arr l) => !l.isEmpty && l.all wfQuizQuestion
  | _ => false

def wfCulture (s : JSON) : Bool :=
  nonEmptyStrOpt (s.get "content")

/-- A well-formed section of known type (§3's per-variant invariants), with
the vocab-item requirement supplied as a parameter. -/
def wfSectionWith (itemOk : JSON → Bool) (s : JSON) : Bool :=
  match s.get "type" with
  | some (.str "vocab") => wfVocabWith itemOk s
  | some (.str "dialogue") => wfDialogue s
  | some (.str "grammar") => wfGrammar s
  | some (.str "flashcards") => wfFlashcards s
  | some (.str "quiz") => wfQuiz s
  | some (.str "culture") => wfCulture s
  | _ => false

/-- A unit document satisfying the §3 invariants, the five required section
types, and content-policy cleanliness (no empty string, no forbidden
substring anywhere), with the vocab-item requirement as a parameter. -/
def wellFormedDocWith (itemOk : JSON → Bool) (data : JSON) : Bool :=
  nonEmptyStrOpt (data.get "title") &&
  nonEmptyStrOpt (data.get "intro") &&
  nonEmptyStrOpt (data.get "estimatedTime") &&
  (match data.get "sections" with
   | some (.arr ss) =>
       !ss.isEmpty && ss.all (wfSectionWith itemOk) &&
       requiredSections.all (hasSectionType ss)
   | _ => false) &&
  noEmptyStrings data &&
  noForbiddenNames data

/-- Well-formedness matching what the audit script enforces: as the spec's
§3 but with `example`/`exampleChinese` also required on vocab items, and no
flashcard key equal to an `Object.prototype` property name (the duplicate
loop's `seen = {}` inherits those truthily, so such keys would be flagged
even at their first occurrence). -/
def strongWellFormedDoc (data : JSON) : Bool :=
  wellFormedDocWith wfVocabItemCode data

/-- Modelled from the spec: a unit document satisfying §3's invariants as
written (vocab items need only the four mandatory fields), together with the
five required section types and content-policy cleanliness — strictly more
than §3 asks, which makes a refutation through it robust. -/
def specWellFormedDoc (data : JSON) : Bool :=
  wellFormedDocWith wfVocabItemSpec data

/-- A fully well-formed vocab item (all six fields). -/
def vocabItemFull : JSON :=
  .obj [("japanese", .str "ねこ"), ("reading", .str "ねこ"), ("romaji", .str "neko"),
        ("chinese", .str "貓"), ("example", .str "ねこがいます。"),
        ("exampleChinese", .str "有貓。")]

/-- A vocab item with only the four fields §3 makes mandatory. -/
def vocabItemNoExample : JSON :=
  .obj [("japanese", .str "いぬ"), ("reading", .str "いぬ"), ("romaji", .str "inu"),
        ("chinese", .str "狗")]

def vocabSectionFull : JSON :=
  .obj [("type", .str "vocab"), ("title", .str "單字"), ("items", .arr [vocabItemFull])]

def vocabSectionNoExample : JSON :=
  .obj [("type", .str "vocab"), ("title", .str "單字"), ("items", .arr [vocabItemNoExample])]

def dialogueSectionOk : JSON :=
  .obj [("type", .str "dialogue"), ("title", .str "對話"), ("scene", .str "教室"),
        ("lines", .arr [.obj [("speaker", .str "A"), ("japanese", .str "こんにちは"),
                              ("chinese", .str "你好")]])]

def grammarSectionOk : JSON :=
  .obj [("type", .str "grammar"), ("title", .str "文法"),
        ("points", .arr [.obj [("pattern", .str "です"), ("meaning", .str "是"),
                               ("structure", .str "N です"),
                               ("examples", .arr [.obj [("japanese", .str "ねこです"),
                                                        ("chinese", .str "是貓")]])]])]

def flashcardsSectionOk : JSON :=
  .obj [("type", .str "flashcards"), ("title", .str "卡片"),
        ("cards", .arr [.obj [("japanese", .str "ねこ"), ("reading", .str "ねこ"),
                              ("romaji", .str "neko"), ("chinese", .str "貓")]])]

def quizSectionOk : JSON :=
  .obj [("type", .str "quiz"), ("title", .str "測驗"),
        ("questions", .arr [.obj [("question", .str "ねことは"),
                                  ("options", .arr [.str "貓", .str "狗", .str "鳥", .str "魚"]),
                                  ("correct", .num 0), ("explanation", .str "說明")]])]

/-- A unit document meeting everything the audit script checks. -/
def sampleUnitDoc : JSON :=
  .obj [("title", .str "第一課"), ("intro", .str "介紹"), ("estimatedTime", .str "30 分鐘"),
        ("sections", .arr [vocabSectionFull, dialogueSectionOk, grammarSectionOk,
                           flashcardsSectionOk, quizSectionOk])]

/-- A unit document satisfying §3 as written: identical to `sampleUnitDoc`
except that its vocab item omits the optional `example`/`exampleChinese`. -/
def specUnitDoc : JSON :=
  .obj [("title", .str "第一課"), ("intro", .str "介紹"), ("estimatedTime", .str "30 分鐘"),
        ("sections", .arr [vocabSectionNoExample, dialogueSectionOk, grammarSectionOk,
                           flashcardsSectionOk, quizSectionOk])]

/-- A document whose only empty string sits in a top-level field named
`sectionsX`, outside the `sections` subtree. -/
def sectionsXDoc : JSON :=
  .obj [("title", .str "t"), ("intro", .str "i"), ("estimatedTime", .str "e"),
        ("sections", .arr [.str "x"]), ("sectionsX", .str "")]

/-- A document with no `sections` field at all. -/
def noSectionsDoc : JSON :=
  .obj [("title", .str "t"), ("intro", .str "i"), ("estimatedTime", .str "e")]

/-- A quiz section whose single question has `correct: 2.5` — a number in
range that is not an integer — and is otherwise flawless. -/
def halfCorrectQuizSec : JSON :=
  .obj [("type", .str "quiz"), ("title", .str "q"),
        ("questions", .arr [.obj [("question", .str "Q"),
                                  ("options", .arr [.str "A", .str "B", .str "C", .str "D"]),
                                  ("correct", .num (mkRat 5 2)), ("explanation", .str "E")]])]

/-- A card whose `japanese` is present but the empty string. -/
def emptyJapCard : JSON :=
  .obj [("japanese", .str ""), ("reading", .str "r"), ("romaji", .str "ro"),
        ("chinese", .str "c")]

/-- A flashcards section with two cards sharing `japanese: ""`. -/
def emptyDupFlashSec : JSON :=
  .obj [("type", .str "flashcards"), ("title", .str "f"),
        ("cards", .arr [emptyJapCard, emptyJapCard])]

theorem str_app_left_cancel {p a b : String} (h : p ++ a = p ++ b) : a = b := by
  have hd : p.data ++ a.data = p.data ++ b.data := by
    have := congrArg String.data h
    simpa [String.data_append] using this
  exact String.ext (List.append_cancel_left hd)

theorem str_app_ne (p : String) {a b : String} (h : a ≠ b) : p ++ a ≠ p ++ b :=
  fun hc => h (str_app_left_cancel hc)

theorem str_app_right_cancel {p a b : String} (h : a ++ p = b ++ p) : a = b := by
  have hd : a.data ++ p.data = b.data ++ p.data := by
    have := congrArg String.data h
    simpa [String.data_append] using this
  exact String.ext (List.append_cancel_right hd)

theorem feGoArr_acc {xs : List JSON}
    (hx : ∀ x ∈ xs, ∀ p res, findEmptyStrings x p res = res ++ findEmptyStrings x p []) :
    ∀ p i res, findEmptyStrings.goArr xs p i res = res ++ findEmptyStrings.goArr xs p i [] := by
  induction xs with
  | nil => intro p i res; simp [findEmptyStrings.goArr]
  | cons x xs ih =>
      intro p i res
      have hxh := hx x (by simp)
      have hxt : ∀ y ∈ xs, ∀ p res, findEmptyStrings y p res = res ++ findEmptyStrings y p [] := by
        intro y hy; exact hx y (by simp [hy])
      simp only [findEmptyStrings.goArr]
      rw [ih hxt, hxh, ih hxt _ _ (findEmptyStrings x (p ++ "[" ++ toString i ++ "]") [])]
      simp

theorem feGoObj_acc {fs : List (String × JSON)}
    (hx : ∀ kv ∈ fs, ∀ p res, findEmptyStrings kv.2 p res = res ++ findEmptyStrings kv.2 p []) :
    ∀ p res, findEmptyStrings.goObj fs p res = res ++ findEmptyStrings.goObj fs p [] := by
  induction fs with
  | nil => intro p res; simp [findEmptyStrings.goObj]
  | cons kv fs ih =>
      intro p res
      obtain ⟨k, v⟩ := kv
      have hxh := hx (k, v) (by simp)
      have hxt : ∀ kv ∈ fs, ∀ p res, findEmptyStrings kv.2 p res = res ++ findEmptyStrings kv.2 p [] := by
        intro y hy; exact hx y (by simp [hy])
      simp only [findEmptyStrings.goObj]
      rw [ih hxt, hxh, ih hxt _ (findEmptyStrings v (p ++ "." ++ k) [])]
      simp

theorem fe_acc : ∀ (j : JSON) (p : String) (res : List String),
    findEmptyStrings j p res = res ++ findEmptyStrings j p [] := by
  have H : ∀ (n : Nat) (j : JSON), sizeOf j ≤ n → ∀ p res,
      findEmptyStrings j p res = res ++ findEmptyStrings j p [] := by
    intro n
    induction n with
    | zero =>
        intro j h
        cases j <;> simp_all
    | succ n ih =>
        intro j hsz p res
        match j with
        | .str s => simp only [findEmptyStrings]; split <;> simp
        | .num q => simp [findEmptyStrings]
        | .bool b => simp [findEmptyStrings]
        | .null => simp [findEmptyStrings]
        | .arr xs =>
            have hx : ∀ x ∈ xs, ∀ p res,
                findEmptyStrings x p res = res ++ findEmptyStrings x p [] := by
              intro x hmem
              have h1 : sizeOf x < sizeOf xs := List.sizeOf_lt_of_mem hmem
              have h2 : sizeOf (JSON.arr xs) = 1 + sizeOf xs := by simp
              exact ih x (by omega)
            simp only [findEmptyStrings]
            exact feGoArr_acc hx p 0 res
        | .obj fs =>
            have hx : ∀ kv ∈ fs, ∀ p res,
                findEmptyStrings kv.2 p res = res ++ findEmptyStrings kv.2 p [] := by
              intro kv hmem
              have h1 : sizeOf kv < sizeOf fs := List.sizeOf_lt_of_mem hmem
              have h2 : sizeOf (JSON.obj fs) = 1 + sizeOf fs := by simp
              have h3 : sizeOf kv.2 < sizeOf kv := by obtain ⟨a, b⟩ := kv; simp
              exact ih kv.2 (by omega)
            simp only [findEmptyStrings]
            exact feGoObj_acc hx p res
  intro j; exact H (sizeOf j) j (le_refl _)

theorem ffGoArr_acc {xs : List JSON}
    (hx : ∀ x ∈ xs, ∀ p res, findForbiddenNames x p res = res ++ findForbiddenNames x p []) :
    ∀ p i res, findForbiddenNames.goArr xs p i res = res ++ findForbiddenNames.goArr xs p i [] := by
  induction xs with
  | nil => intro p i res; simp [findForbiddenNames.goArr]
  | cons x xs ih =>
      intro p i res
      have hxh := hx x (by simp)
      have hxt : ∀ y ∈ xs, ∀ p res, findForbiddenNames y p res = res ++ findForbiddenNames y p [] := by
        intro y hy; exact hx y (by simp [hy])
      simp only [findForbiddenNames.goArr]
      rw [ih hxt, hxh, ih hxt _ _ (findForbiddenNames x (p ++ "[" ++ toString i ++ "]") [])]
      simp

theorem ffGoObj_acc {fs : List (String × JSON)}
    (hx : ∀ kv ∈ fs, ∀ p res, findForbiddenNames kv.2 p res = res ++ findForbiddenNames kv.2 p []) :
    ∀ p res, findForbiddenNames.goObj fs p res = res ++ findForbiddenNames.goObj fs p [] := by
  induction fs with
  | nil => intro p res; simp [findForbiddenNames.goObj]
  | cons kv fs ih =>
      intro p res
      obtain ⟨k, v⟩ := kv
      have hxh := hx (k, v) (by simp)
      have hxt : ∀ kv ∈ fs, ∀ p res, findForbiddenNames kv.2 p res = res ++ findForbiddenNames kv.2 p [] := by
        intro y hy; exact hx y (by simp [hy])
      simp only [findForbiddenNames.goObj]
      rw [ih hxt, hxh, ih hxt _ (findForbiddenNames v (p ++ "." ++ k) [])]
      simp

theorem ff_acc : ∀ (j : JSON) (p : String) (res : List (String × String)),
    findForbiddenNames j p res = res ++ findForbiddenNames j p [] := by
  have H : ∀ (n : Nat) (j : JSON), sizeOf j ≤ n → ∀ p res,
      findForbiddenNames j p res = res ++ findForbiddenNames j p [] := by
    intro n
    induction n with
    | zero =>
        intro j h
        cases j <;> simp_all
    | succ n ih =>
        intro j hsz p res
        match j with
        | .str s => simp only [findForbiddenNames]; split <;> simp
        | .num q => simp [findForbiddenNames]
        | .bool b => simp [findForbiddenNames]
        | .null => simp [findForbiddenNames]
        | .arr xs =>
            have hx : ∀ x ∈ xs, ∀ p res,
                findForbiddenNames x p res = res ++ findForbiddenNames x p [] := by
              intro x hmem
              have h1 : sizeOf x < sizeOf xs := List.sizeOf_lt_of_mem hmem
              have h2 : sizeOf (JSON.arr xs) = 1 + sizeOf xs := by simp
              exact ih x (by omega)
            simp only [findForbiddenNames]
            exact ffGoArr_acc hx p 0 res
        | .obj fs =>
            have hx : ∀ kv ∈ fs, ∀ p res,
                findForbiddenNames kv.2 p res = res ++ findForbiddenNames kv.2 p [] := by
              intro kv hmem
              have h1 : sizeOf kv < sizeOf fs := List.sizeOf_lt_of_mem hmem
              have h2 : sizeOf (JSON.obj fs) = 1 + sizeOf fs := by simp
              have h3 : sizeOf kv.2 < sizeOf kv := by obtain ⟨a, b⟩ := kv; simp
              exact ih kv.2 (by omega)
            simp only [findForbiddenNames]
            exact ffGoObj_acc hx p res
  intro j; exact H (sizeOf j) j (le_refl _)

theorem noEmptyGoA_mem {xs : List JSON} (h : noEmptyStrings.goA xs = true) :
    ∀ x ∈ xs, noEmptyStrings x = true := by
  induction xs with
  | nil => intro x hx; simp at hx
  | cons y ys ih =>
      intro x hx
      simp only [noEmptyStrings.goA, Bool.and_eq_true] at h
      rcases List.mem_cons.mp hx with rfl | hx
      · exact h.1
      · exact ih h.2 x hx

theorem noEmptyGoO_mem {fs : List (String × JSON)} (h : noEmptyStrings.goO fs = true) :
    ∀ kv ∈ fs, noEmptyStrings kv.2 = true := by
  induction fs with
  | nil => intro kv hkv; simp at hkv
  | cons y ys ih =>
      intro kv hkv
      obtain ⟨k, v⟩ := y
      simp only [noEmptyStrings.goO, Bool.and_eq_true] at h
      rcases List.mem_cons.mp hkv with rfl | hkv
      · exact h.1
      · exact ih h.2 kv hkv

theorem feGoArr_const {xs : List JSON}
    (hx : ∀ x ∈ xs, ∀ p res, findEmptyStrings x p res = res) :
    ∀ p i res, findEmptyStrings.goArr xs p i res = res := by
  induction xs with
  | nil => intro p i res; simp [findEmptyStrings.goArr]
  | cons x xs ih =>
      intro p i res
      simp only [findEmptyStrings.goArr]
      rw [hx x (by simp)]
      exact ih (fun y hy => hx y (by simp [hy])) p (i + 1) res

theorem feGoObj_const {fs : List (String × JSON)}
    (hx : ∀ kv ∈ fs, ∀ p res, findEmptyStrings kv.2 p res = res) :
    ∀ p res, findEmptyStrings.goObj fs p res = res := by
  induction fs with
  | nil => intro p res; simp [findEmptyStrings.goObj]
  | cons kv fs ih =>
      intro p res
      obtain ⟨k, v⟩ := kv
      simp only [findEmptyStrings.goObj]
      rw [hx (k, v) (by simp)]
      exact ih (fun y hy => hx y (by simp [hy])) p res

theorem fe_clean : ∀ (j : JSON), noEmptyStrings j = true →
    ∀ p res, findEmptyStrings j p res = res := by
  have H : ∀ (n : Nat) (j : JSON), sizeOf j ≤ n → noEmptyStrings j = true →
      ∀ p res, findEmptyStrings j p res = res := by
    intro n
    induction n with
    | zero =>
        intro j h
        cases j <;> simp_all
    | succ n ih =>
        intro j hsz hcl p res
        match j with
        | .str s =>
            simp only [noEmptyStrings, bne_iff_ne, ne_eq, decide_eq_true_eq] at hcl
            simp [findEmptyStrings, hcl]
        | .num q => simp [findEmptyStrings]
        | .bool b => simp [findEmptyStrings]
        | .null => simp [findEmptyStrings]
        | .arr xs =>
            have hmem := noEmptyGoA_mem (by simpa [noEmptyStrings] using hcl)
            have hx : ∀ x ∈ xs, ∀ p res, findEmptyStrings x p res = res := by
              intro x hm
              have h1 : sizeOf x < sizeOf xs := List.sizeOf_lt_of_mem hm
              have h2 : sizeOf (JSON.arr xs) = 1 + sizeOf xs := by simp
              exact ih x (by omega) (hmem x hm)
            simp only [findEmptyStrings]
            exact feGoArr_const hx p 0 res
        | .obj fs =>
            have hmem := noEmptyGoO_mem (by simpa [noEmptyStrings] using hcl)
            have hx : ∀ kv ∈ fs, ∀ p res, findEmptyStrings kv.2 p res = res := by
              intro kv hm
              have h1 : sizeOf kv < sizeOf fs := List.sizeOf_lt_of_mem hm
              have h2 : sizeOf (JSON.obj fs) = 1 + sizeOf fs := by simp
              have h3 : sizeOf kv.2 < sizeOf kv := by obtain ⟨a, b⟩ := kv; simp
              exact ih kv.2 (by omega) (hmem kv hm)
            simp only [findEmptyStrings]
            exact feGoObj_const hx p res
  intro j; exact H (sizeOf j) j (le_refl _)

theorem noForbGoA_mem {xs : List JSON} (h : noForbiddenNames.goA xs = true) :
    ∀ x ∈ xs, noForbiddenNames x = true := by
  induction xs with
  | nil => intro x hx; simp at hx
  | cons y ys ih =>
      intro x hx
      simp only [noForbiddenNames.goA, Bool.and_eq_true] at h
      rcases List.mem_cons.mp hx with rfl | hx
      · exact h.1
      · exact ih h.2 x hx

theorem noForbGoO_mem {fs : List (String × JSON)} (h : noForbiddenNames.goO fs = true) :
    ∀ kv ∈ fs, noForbiddenNames kv.2 = true := by
  induction fs with
  | nil => intro kv hkv; simp at hkv
  | cons y ys ih =>
      intro kv hkv
      obtain ⟨k, v⟩ := y
      simp only [noForbiddenNames.goO, Bool.and_eq_true] at h
      rcases List.mem_cons.mp hkv with rfl | hkv
      · exact h.1
      · exact ih h.2 kv hkv

theorem ffGoArr_const {xs : List JSON}
    (hx : ∀ x ∈ xs, ∀ p res, findForbiddenNames x p res = res) :
    ∀ p i res, findForbiddenNames.goArr xs p i res = res := by
  induction xs with
  | nil => intro p i res; simp [findForbiddenNames.goArr]
  | cons x xs ih =>
      intro p i res
      simp only [findForbiddenNames.goArr]
      rw [hx x (by simp)]
      exact ih (fun y hy => hx y (by simp [hy])) p (i + 1) res

theorem ffGoObj_const {fs : List (String × JSON)}
    (hx : ∀ kv ∈ fs, ∀ p res, findForbiddenNames kv.2 p res = res) :
    ∀ p res, findForbiddenNames.goObj fs p res = res := by
  induction fs with
  | nil => intro p res; simp [findForbiddenNames.goObj]
  | cons kv fs ih =>
      intro p res
      obtain ⟨k, v⟩ := kv
      simp only [findForbiddenNames.goObj]
      rw [hx (k, v) (by simp)]
      exact ih (fun y hy => hx y (by simp [hy])) p res

theorem ff_clean : ∀ (j : JSON), noForbiddenNames j = true →
    ∀ p res, findForbiddenNames j p res = res := by
  have H : ∀ (n : Nat) (j : JSON), sizeOf j ≤ n → noForbiddenNames j = true →
      ∀ p res, findForbiddenNames j p res = res := by
    intro n
    induction n with
    | zero =>
        intro j h
        cases j <;> simp_all
    | succ n ih =>
        intro j hsz hcl p res
        match j with
        | .str s =>
            simp only [noForbiddenNames, Bool.and_eq_true, Bool.not_eq_true'] at hcl
            simp [findForbiddenNames, hcl.1, hcl.2]
        | .num q => simp [findForbiddenNames]
        | .bool b => simp [findForbiddenNames]
        | .null => simp [findForbiddenNames]
        | .arr xs =>
            have hmem := noForbGoA_mem (by simpa [noForbiddenNames] using hcl)
            have hx : ∀ x ∈ xs, ∀ p res, findForbiddenNames x p res = res := by
              intro x hm
              have h1 : sizeOf x < sizeOf xs := List.sizeOf_lt_of_mem hm
              have h2 : sizeOf (JSON.arr xs) = 1 + sizeOf xs := by simp
              exact ih x (by omega) (hmem x hm)
            simp only [findForbiddenNames]
            exact ffGoArr_const hx p 0 res
        | .obj fs =>
            have hmem := noForbGoO_mem (by simpa [noForbiddenNames] using hcl)
            have hx : ∀ kv ∈ fs, ∀ p res, findForbiddenNames kv.2 p res = res := by
              intro kv hm
              have h1 : sizeOf kv < sizeOf fs := List.sizeOf_lt_of_mem hm
              have h2 : sizeOf (JSON.obj fs) = 1 + sizeOf fs := by simp
              have h3 : sizeOf kv.2 < sizeOf kv := by obtain ⟨a, b⟩ := kv; simp
              exact ih kv.2 (by omega) (hmem kv hm)
            simp only [findForbiddenNames]
            exact ffGoObj_const hx p res
  intro j; exact H (sizeOf j) j (le_refl _)

theorem vocabFieldLoop_clean (filePath pfx : String) (i : Nat) (item : JSON) :
    ∀ fields : List String, (∀ f ∈ fields, present (item.get f) = true) →
      vocabFieldLoop filePath pfx i item fields = [] := by
  intro fields
  induction fields with
  | nil => intro _; simp [vocabFieldLoop]
  | cons f fs ih =>
      intro h
      simp only [vocabFieldLoop, h f (by simp)]
      simpa using ih fun g hg => h g (by simp [hg])

theorem vocabItemLoop_clean (filePath pfx : String) :
    ∀ (l : List JSON) (i : Nat), (∀ item ∈ l, wfVocabItemCode item = true) →
      vocabItemLoop filePath pfx i l = [] := by
  intro l
  induction l with
  | nil => intro i _; simp [vocabItemLoop]
  | cons item rest ih =>
      intro i h
      have hh := h item (by simp)
      simp only [wfVocabItemCode, List.all_eq_true] at hh
      simp only [vocabItemLoop]
      rw [vocabFieldLoop_clean filePath pfx i item vocabRequiredFields hh,
        ih (i + 1) fun y hy => h y (by simp [hy])]
      simp

theorem checkVocab_clean (s : JSON) (filePath : String) (idx : Nat)
    (hw : wfVocabWith wfVocabItemCode s = true) :
    checkVocab s filePath idx = [] := by
  unfold wfVocabWith at hw
  split at hw
  · next l heq =>
      simp only [Bool.and_eq_true, Bool.not_eq_true', List.all_eq_true] at hw
      unfold checkVocab
      rw [heq]
      simp only [truthy, JSON.truthyV, if_true]
      have hlen : ¬ (l.length = 0) := by
        cases l with
        | nil => simp [List.isEmpty] at hw
        | cons a as => simp
      rw [if_neg hlen]
      exact vocabItemLoop_clean filePath _ l 0 hw.2
  · simp at hw

theorem nonEmptyStrOpt_shape {o : Option JSON} (h : nonEmptyStrOpt o = true) :
    ∃ s, o = some (.str s) ∧ s ≠ "" := by
  match o, h with
  | some (.str s), h =>
      exact ⟨s, rfl, by simpa [nonEmptyStrOpt] using h⟩

theorem isEmptyStr_false_of_ne {s : String} (hs : s ≠ "") :
    isEmptyStr (some (.str s)) = false := by
  unfold isEmptyStr
  split
  · next heq =>
      injection heq with heq2
      injection heq2 with heq3
      exact absurd heq3 hs
  · rfl

theorem dialogueFieldLoop_clean (filePath pfx : String) (i : Nat) (line : JSON) :
    ∀ fields : List String, (∀ f ∈ fields, present (line.get f) = true) →
      dialogueFieldLoop filePath pfx i line fields = [] := by
  intro fields
  induction fields with
  | nil => intro _; simp [dialogueFieldLoop]
  | cons f fs ih =>
      intro h
      simp only [dialogueFieldLoop, h f (by simp)]
      simpa using ih fun g hg => h g (by simp [hg])

theorem dialogueLineLoop_clean (filePath pfx : String) :
    ∀ (l : List JSON) (i : Nat), (∀ line ∈ l, wfDialogueLine line = true) →
      dialogueLineLoop filePath pfx i l = [] := by
  intro l
  induction l with
  | nil => intro i _; simp [dialogueLineLoop]
  | cons line rest ih =>
      intro i h
      have hh := h line (by simp)
      simp only [wfDialogueLine, List.all_eq_true] at hh
      simp only [dialogueLineLoop]
      rw [dialogueFieldLoop_clean filePath pfx i line dialogueLineFields hh,
        ih (i + 1) fun y hy => h y (by simp [hy])]
      simp

theorem checkDialogue_clean (s : JSON) (filePath : String) (idx : Nat)
    (hw : wfDialogue s = true) :
    checkDialogue s filePath idx = [] := by
  unfold wfDialogue at hw
  simp only [Bool.and_eq_true] at hw
  obtain ⟨t, hsc, ht⟩ := nonEmptyStrOpt_shape hw.1
  have hw2 := hw.2
  split at hw2
  · next l heq =>
      simp only [Bool.and_eq_true, Bool.not_eq_true', List.all_eq_true] at hw2
      unfold checkDialogue
      rw [heq, hsc]
      simp only [truthy, JSON.truthyV, isEmptyStr_false_of_ne ht]
      have hlen : ¬ (l.length = 0) := by
        cases l with
        | nil => simp [List.isEmpty] at hw2
        | cons a as => simp
      rw [if_neg hlen]
      rw [dialogueLineLoop_clean filePath _ l 0 hw2.2]
      simp [ht]
  · simp at hw2

theorem grammarFieldLoop_clean (filePath pfx : String) (i : Nat) (pt : JSON) :
    ∀ fields : List String, (∀ f ∈ fields, present (pt.get f) = true) →
      grammarFieldLoop filePath pfx i pt fields = [] := by
  intro fields
  induction fields with
  | nil => intro _; simp [grammarFieldLoop]
  | cons f fs ih =>
      intro h
      simp only [grammarFieldLoop, h f (by simp)]
      simpa using ih fun g hg => h g (by simp [hg])

theorem grammarPointIssues_clean (filePath pfx : String) (i : Nat) (pt : JSON)
    (hw : wfGrammarPoint pt = true) :
    grammarPointIssues filePath pfx i pt = [] := by
  unfold wfGrammarPoint at hw
  simp only [Bool.and_eq_true, List.all_eq_true] at hw
  have hw2 := hw.2
  split at hw2
  · next l heq =>
      unfold grammarPointIssues
      rw [grammarFieldLoop_clean filePath pfx i pt grammarPointFields hw.1, heq]
      simp only [truthy, JSON.truthyV, if_true]
      have hlen : ¬ (l.length = 0) := by
        cases l with
        | nil => simp [List.isEmpty] at hw2
        | cons a as => simp
      rw [if_neg hlen]
      simp
  · simp at hw2

theorem grammarPointLoop_clean (filePath pfx : String) :
    ∀ (l : List JSON) (i : Nat), (∀ pt ∈ l, wfGrammarPoint pt = true) →
      grammarPointLoop filePath pfx i l = [] := by
  intro l
  induction l with
  | nil => intro i _; simp [grammarPointLoop]
  | cons pt rest ih =>
      intro i h
      simp only [grammarPointLoop]
      rw [grammarPointIssues_clean filePath pfx i pt (h pt (by simp)),
        ih (i + 1) fun y hy => h y (by simp [hy])]
      simp

theorem checkGrammar_clean (s : JSON) (filePath : String) (idx : Nat)
    (hw : wfGrammar s = true) :
    checkGrammar s filePath idx = [] := by
  unfold wfGrammar at hw
  split at hw
  · next l heq =>
      simp only [Bool.and_eq_true, Bool.not_eq_true', List.all_eq_true] at hw
      unfold checkGrammar
      rw [heq]
      simp only [truthy, JSON.truthyV, if_true]
      have hlen : ¬ (l.length = 0) := by
        cases l with
        | nil => simp [List.isEmpty] at hw
        | cons a as => simp
      rw [if_neg hlen]
      exact grammarPointLoop_clean filePath _ l 0 hw.2
  · simp at hw

theorem checkCulture_clean (s : JSON) (filePath : String) (idx : Nat)
    (hw : wfCulture s = true) :
    checkCulture s filePath idx = [] := by
  unfold wfCulture at hw
  obtain ⟨t, hc, ht⟩ := nonEmptyStrOpt_shape hw
  unfold checkCulture
  rw [hc]
  simp [truthy, JSON.truthyV, isEmptyStr_false_of_ne ht, ht]

theorem isEmptyStrV_false_of_ne {s : String} (hs : s ≠ "") :
    isEmptyStrV (.str s) = false := by
  unfold isEmptyStrV
  split
  · next heq =>
      injection heq with h2
      exact absurd h2 hs
  · rfl

theorem cardFieldLoop_clean (filePath pfx : String) (i : Nat) (card : JSON) :
    ∀ fields : List String, (∀ f ∈ fields, present (card.get f) = true) →
      cardFieldLoop filePath pfx i card fields = [] := by
  intro fields
  induction fields with
  | nil => intro _; simp [cardFieldLoop]
  | cons f fs ih =>
      intro h
      simp only [cardFieldLoop, h f (by simp)]
      simpa using ih fun g hg => h g (by simp [hg])

theorem cardIssues_clean (filePath pfx : String) (i : Nat) (card : JSON)
    (hw : wfCard card = true) :
    cardIssues filePath pfx i card = [] := by
  unfold wfCard at hw
  simp only [Bool.and_eq_true, List.all_eq_true, Option.isNone_iff_eq_none] at hw
  obtain ⟨⟨⟨hf, hb⟩, hj⟩, hfields⟩ := hw
  unfold cardIssues
  rw [hf, hb, cardFieldLoop_clean filePath pfx i card cardRequiredFields hfields]
  simp

theorem cardLoop_clean (filePath pfx : String) :
    ∀ (l : List JSON) (i : Nat), (∀ card ∈ l, wfCard card = true) →
      cardLoop filePath pfx i l = [] := by
  intro l
  induction l with
  | nil => intro i _; simp [cardLoop]
  | cons card rest ih =>
      intro i h
      simp only [cardLoop]
      rw [cardIssues_clean filePath pfx i card (h card (by simp)),
        ih (i + 1) fun y hy => h y (by simp [hy])]
      simp

theorem cardKey_of_wf {card : JSON} (hw : wfCard card = true) :
    cardKey card = .str (cardJapaneseOf card) ∧ cardJapaneseOf card ≠ "" := by
  unfold wfCard at hw
  simp only [Bool.and_eq_true, List.all_eq_true, Option.isNone_iff_eq_none] at hw
  obtain ⟨⟨⟨hf, hb⟩, hj⟩, hfields⟩ := hw
  obtain ⟨j, hjeq, hjne⟩ := nonEmptyStrOpt_shape hj
  have hjap : cardJapaneseOf card = j := by
    simp [cardJapaneseOf, hjeq]
  refine ⟨?_, by rw [hjap]; exact hjne⟩
  unfold cardKey
  rw [hjeq, hjap]
  simp [jsOr, JSON.truthyV, hjne]

theorem dupScan_nil_of_nodup (filePath pfx : String) :
    ∀ (l : List JSON) (seen : List String),
      nodupStr (l.map jsRepr) = true → (∀ f ∈ l, jsRepr f ∉ seen) →
      dupScan filePath pfx l seen = [] := by
  intro l
  induction l with
  | nil => intro seen _ _; simp [dupScan]
  | cons f rest ih =>
      intro seen hnd hns
      simp only [List.map_cons, nodupStr, Bool.and_eq_true, Bool.not_eq_true'] at hnd
      have hcont : seen.contains (jsRepr f) = false := by
        have := hns f (by simp)
        simpa using this
      simp only [dupScan, hcont]
      have hrest : ∀ g ∈ rest, jsRepr g ∉ jsRepr f :: seen := by
        intro g hg
        simp only [List.mem_cons, not_or]
        constructor
        · intro hcontra
          have hmemmap : jsRepr f ∈ rest.map jsRepr := by
            rw [← hcontra]
            exact List.mem_map_of_mem _ hg
          have hno : jsRepr f ∉ rest.map jsRepr := by simpa using hnd.1
          exact hno hmemmap
        · exact hns g (by simp [hg])
      simpa using ih (jsRepr f :: seen) hnd.2 hrest

theorem frontsOf_eq_of_wf {l : List JSON} (hw : ∀ card ∈ l, wfCard card = true) :
    frontsOf l = l.map fun c => .str (cardJapaneseOf c) := by
  unfold frontsOf
  have hkeys : l.map cardKey = l.map fun c => .str (cardJapaneseOf c) := by
    induction l with
    | nil => simp
    | cons c rest ih =>
        simp only [List.map_cons]
        rw [(cardKey_of_wf (hw c (by simp))).1, ih fun y hy => hw y (by simp [hy])]
  rw [hkeys]
  rw [List.filter_eq_self.mpr]
  intro a ha
  obtain ⟨c, hc, rfl⟩ := List.mem_map.mp ha
  rw [isEmptyStrV_false_of_ne (cardKey_of_wf (hw c hc)).2]
  rfl

theorem checkFlashcards_clean (s : JSON) (filePath : String) (idx : Nat)
    (hw : wfFlashcards s = true) :
    checkFlashcards s filePath idx = [] := by
  unfold wfFlashcards at hw
  split at hw
  · next l heq =>
      simp only [Bool.and_eq_true, Bool.not_eq_true', List.all_eq_true] at hw
      obtain ⟨⟨⟨hne, hall⟩, hnd⟩, hproto⟩ := hw
      unfold checkFlashcards
      rw [heq]
      simp only [truthy, JSON.truthyV, if_true]
      have hlen : ¬ (l.length = 0) := by
        cases l with
        | nil => simp [List.isEmpty] at hne
        | cons a as => simp
      rw [if_neg hlen]
      rw [cardLoop_clean filePath _ l 0 hall]
      rw [frontsOf_eq_of_wf hall]
      rw [dupScan_nil_of_nodup filePath _ _ protoKeys]
      · simp
      · have hmm : (l.map fun c => JSON.str (cardJapaneseOf c)).map jsRepr
            = l.map cardJapaneseOf := by
          rw [List.map_map]
          rfl
        rw [hmm]
        exact hnd
      · intro f hmem
        obtain ⟨c, hc, rfl⟩ := List.mem_map.mp hmem
        have hp := hproto c hc
        simp only [Bool.not_eq_true'] at hp
        have hrepr : jsRepr (JSON.str (cardJapaneseOf c)) = cardJapaneseOf c := rfl
        rw [hrepr]
        simpa using hp
  · simp at hw

theorem quizQuestionIssues_clean (filePath pfx : String) (i : Nat) (q : JSON)
    (hw : wfQuizQuestion q = true) :
    quizQuestionIssues filePath pfx i q = [] := by
  unfold wfQuizQuestion at hw
  simp only [Bool.and_eq_true] at hw
  obtain ⟨⟨⟨hq, hopt⟩, hcorr⟩, hexp⟩ := hw
  obtain ⟨qs, hqeq, hqne⟩ := nonEmptyStrOpt_shape hq
  obtain ⟨es, heeq, hene⟩ := nonEmptyStrOpt_shape hexp
  unfold quizQuestionIssues
  have h1 : quizQuestionCheck filePath pfx i q = [] := by
    unfold quizQuestionCheck
    rw [hqeq]
    simp [truthy, JSON.truthyV, hqne]
  have h2 : quizOptionsCheck filePath pfx i q = [] := by
    unfold quizOptionsCheck
    split at hopt
    · next os heq =>
        rw [heq]
        simp only [truthy, JSON.truthyV, if_true]
        simp only [beq_iff_eq] at hopt
        simp [hopt]
    · simp at hopt
  have h3 : quizCorrectCheck filePath pfx i q = [] := by
    unfold quizCorrectCheck
    split at hcorr
    · next x heq =>
        rw [heq]
        simp only [present, if_true]
        simp only [decide_eq_true_eq] at hcorr
        have hrange : ¬ (x < 0 ∨ 3 < x) := by
          rcases hcorr with rfl | rfl | rfl | rfl <;> norm_num
        rw [if_neg hrange]
    · simp at hcorr
  have h4 : quizExplanationCheck filePath pfx i q = [] := by
    unfold quizExplanationCheck
    rw [heeq]
    simp [truthy, JSON.truthyV, hene]
  rw [h1, h2, h3, h4]
  rfl

theorem questionLoop_clean (filePath pfx : String) :
    ∀ (l : List JSON) (i : Nat), (∀ q ∈ l, wfQuizQuestion q = true) →
      questionLoop filePath pfx i l = [] := by
  intro l
  induction l with
  | nil => intro i _; simp [questionLoop]
  | cons q rest ih =>
      intro i h
      simp only [questionLoop]
      rw [quizQuestionIssues_clean filePath pfx i q (h q (by simp)),
        ih (i + 1) fun y hy => h y (by simp [hy])]
      simp

theorem checkQuiz_clean (s : JSON) (filePath : String) (idx : Nat)
    (hw : wfQuiz s = true) :
    checkQuiz s filePath idx = [] := by
  unfold wfQuiz at hw
  split at hw
  · next l heq =>
      simp only [Bool.and_eq_true, Bool.not_eq_true', List.all_eq_true] at hw
      unfold checkQuiz
      rw [heq]
      simp only [truthy, JSON.truthyV, if_true]
      have hlen : ¬ (l.length = 0) := by
        cases l with
        | nil => simp [List.isEmpty] at hw
        | cons a as => simp
      rw [if_neg hlen]
      exact questionLoop_clean filePath _ l 0 hw.2
  · simp at hw

theorem checkSection_clean (rel : String) (idx : Nat) (s : JSON) (itemOk : JSON → Bool)
    (hvocab : ∀ t fp j, wfVocabWith itemOk t = true → checkVocab t fp j = [])
    (hw : wfSectionWith itemOk s = true) :
    checkSection rel idx s = [] := by
  unfold wfSectionWith at hw
  unfold checkSection
  split at hw
  · next heq =>
      rw [heq]
      exact hvocab s rel idx hw
  · next heq =>
      rw [heq]
      exact checkDialogue_clean s rel idx hw
  · next heq =>
      rw [heq]
      exact checkGrammar_clean s rel idx hw
  · next heq =>
      rw [heq]
      exact checkFlashcards_clean s rel idx hw
  · next heq =>
      rw [heq]
      exact checkQuiz_clean s rel idx hw
  · next heq =>
      rw [heq]
      exact checkCulture_clean s rel idx hw
  · simp at hw

theorem present_of_nonEmptyStrOpt {o : Option JSON} (h : nonEmptyStrOpt o = true) :
    present o = true := by
  obtain ⟨s, rfl, _⟩ := nonEmptyStrOpt_shape h
  rfl

theorem topPresenceLoop_clean (rel : String) (data : JSON) :
    ∀ fields : List String, (∀ f ∈ fields, present (data.get f) = true) →
      topPresenceLoop rel data fields = [] := by
  intro fields
  induction fields with
  | nil => intro _; simp [topPresenceLoop]
  | cons f fs ih =>
      intro h
      simp only [topPresenceLoop, h f (by simp)]
      simpa using ih fun g hg => h g (by simp [hg])

theorem topFieldIssues_clean (rel : String) (data : JSON)
    (ht : nonEmptyStrOpt (data.get "title") = true)
    (hi : nonEmptyStrOpt (data.get "intro") = true)
    (he : nonEmptyStrOpt (data.get "estimatedTime") = true)
    {ss : List JSON} (hs : data.get "sections" = some (.arr ss)) :
    topFieldIssues rel data = [] := by
  obtain ⟨ts, hts, htsne⟩ := nonEmptyStrOpt_shape ht
  obtain ⟨is_, his, hisne⟩ := nonEmptyStrOpt_shape hi
  obtain ⟨es, hes, hesne⟩ := nonEmptyStrOpt_shape he
  unfold topFieldIssues
  rw [topPresenceLoop_clean rel data _ ?hpres]
  case hpres =>
    intro f hf
    simp only [List.mem_cons, List.not_mem_nil, or_false] at hf
    rcases hf with rfl | rfl | rfl | rfl
    · exact present_of_nonEmptyStrOpt ht
    · exact present_of_nonEmptyStrOpt hi
    · exact present_of_nonEmptyStrOpt he
    · rw [hs]; rfl
  rw [hts, his, hes, isEmptyStr_false_of_ne htsne, isEmptyStr_false_of_ne hisne,
    isEmptyStr_false_of_ne hesne]
  rfl

theorem missingSectionLoop_clean (rel : String) (sections : List JSON) :
    ∀ reqs : List String, (∀ r ∈ reqs, hasSectionType sections r = true) →
      missingSectionLoop rel sections reqs = [] := by
  intro reqs
  induction reqs with
  | nil => intro _; simp [missingSectionLoop]
  | cons r rs ih =>
      intro h
      simp only [missingSectionLoop, h r (by simp)]
      simpa using ih fun g hg => h g (by simp [hg])

theorem sectionLoop_clean (rel : String) (itemOk : JSON → Bool)
    (hvocab : ∀ t fp j, wfVocabWith itemOk t = true → checkVocab t fp j = []) :
    ∀ (l : List JSON) (i : Nat), (∀ s ∈ l, wfSectionWith itemOk s = true) →
      sectionLoop rel i l = [] := by
  intro l
  induction l with
  | nil => intro i _; simp [sectionLoop]
  | cons s rest ih =>
      intro i h
      simp only [sectionLoop]
      rw [checkSection_clean rel i s itemOk hvocab (h s (by simp)),
        ih (i + 1) fun y hy => h y (by simp [hy])]
      simp

/-- C1 (amended): a unit document satisfying the §3 invariants strengthened
by what the script actually enforces — `example`/`exampleChinese` also
present on every vocab item, all five required section types present, no
empty string and no forbidden substring anywhere, and no flashcard key
equal to an `Object.prototype` property name — produces zero Issues from
the full per-unit validator set (general fields, every section validator,
and both content scanners). -/
theorem audit_zero_issues_of_strong_wellformed (rel : String) (data : JSON)
    (hw : strongWellFormedDoc data = true) : auditUnit rel data = [] := by
  unfold strongWellFormedDoc wellFormedDocWith at hw
  simp only [Bool.and_eq_true] at hw
  obtain ⟨⟨⟨⟨⟨ht, hi⟩, he⟩, hsec⟩, hne⟩, hnf⟩ := hw
  split at hsec
  · next ss heq =>
      simp only [Bool.and_eq_true, Bool.not_eq_true', List.all_eq_true] at hsec
      obtain ⟨⟨hnemp, hall⟩, hreq⟩ := hsec
      have hlen : ¬ (ss.length = 0) := by
        cases ss with
        | nil => simp [List.isEmpty] at hnemp
        | cons a as => simp
      unfold auditUnit
      split
      case h_2 heq2 => exact absurd heq (heq2 ss)
      case h_1 ss2 heq2 =>
      rw [heq] at heq2
      injection heq2 with heq3
      injection heq3 with heq4
      subst heq4
      rw [if_neg hlen]
      rw [topFieldIssues_clean rel data ht hi he heq]
      rw [sectionLoop_clean rel wfVocabItemCode
        (fun t fp j hwv => checkVocab_clean t fp j hwv) ss 0 hall]
      rw [missingSectionLoop_clean rel ss requiredSections hreq]
      have hforb : forbiddenIssues rel data = [] := by
        unfold forbiddenIssues
        rw [ff_clean data hnf "root" []]
        rfl
      have hemp : emptyStringIssues rel data = [] := by
        unfold emptyStringIssues
        rw [fe_clean data hne "root" []]
        rfl
      rw [hforb, hemp]
      rfl
  · simp at hsec

/-- Witness for C1's amended theorem at a concrete fully well-formed unit. -/
theorem audit_zero_issues_witness :
    strongWellFormedDoc sampleUnitDoc = true ∧ auditUnit "src/data/ch1/unit1.json" sampleUnitDoc = [] :=
  ⟨by decide, audit_zero_issues_of_strong_wellformed "src/data/ch1/unit1.json" sampleUnitDoc (by decide)⟩

/-- Counterexample to C1 as stated: `specUnitDoc` satisfies every §3
invariant as written (its vocab item carries the four mandatory fields;
`example`/`exampleChinese` are omitted, which §3 marks optional), is
content-clean, and contains all five required section types — yet the
validator set emits Issues (the vocab validator also demands `example` and
`exampleChinese`). -/
theorem audit_spec_wellformed_counterexample :
    specWellFormedDoc specUnitDoc = true ∧ auditUnit "f" specUnitDoc ≠ [] := by
  constructor
  · decide
  · decide

/-- C2: the run's final verdict is FAIL iff recorded Issues plus
cross-reference findings exceed zero, PASS otherwise; equivalently, the
verdict is fail iff at least one issue or cross finding exists. -/
theorem final_verdict_fail_iff (issues : List Issue) (cross : Nat) :
    (finalVerdict issues cross = .fail ↔ 0 < totalProblems issues cross) ∧
    (finalVerdict issues cross = .pass ↔ totalProblems issues cross = 0) ∧
    (finalVerdict issues cross = .fail ↔ issues ≠ [] ∨ 0 < cross) := by
  by_cases h : totalProblems issues cross = 0
  · have hv : finalVerdict issues cross = .pass := by
      unfold finalVerdict
      rw [if_pos h]
    unfold totalProblems at h
    refine ⟨?_, ?_, ?_⟩
    · simp [hv, h, totalProblems]
    · simp [hv, h, totalProblems]
    · have hc : cross = 0 := by omega
      have hl : issues = [] := List.length_eq_zero.mp (by omega)
      subst hl
      subst hc
      simp [hv]
  · have hv : finalVerdict issues cross = .fail := by
      unfold finalVerdict
      rw [if_neg h]
    unfold totalProblems at h
    refine ⟨?_, ?_, ?_⟩
    · simp [hv, totalProblems]
      omega
    · simp [hv, totalProblems, h]
    · simp [hv]
      rcases Nat.eq_zero_or_pos cross with hc | hc
      · left
        intro hl
        rw [hl] at h
        simp [hc] at h
      · right
        exact hc

theorem keySet_eq_image (l : List (Nat × String)) :
    keySet l = l.toFinset.image pairKey := by
  unfold keySet
  ext x
  simp [List.mem_toFinset, Finset.mem_image, List.mem_map]

theorem image_sdiff_of_inj {S T : Finset (Nat × String)}
    (hinj : ∀ p ∈ S, ∀ q ∈ T, pairKey p = pairKey q → p = q) :
    S.image pairKey \ T.image pairKey = (S \ T).image pairKey := by
  ext x
  simp only [Finset.mem_sdiff, Finset.mem_image]
  constructor
  · rintro ⟨⟨p, hp, rfl⟩, hnot⟩
    exact ⟨p, ⟨hp, fun hpt => hnot ⟨p, hpt, rfl⟩⟩, rfl⟩
  · rintro ⟨p, ⟨hp, hpt⟩, rfl⟩
    refine ⟨⟨p, hp, rfl⟩, ?_⟩
    rintro ⟨q, hq, hkey⟩
    exact hpt ((hinj p hp q hq hkey.symm) ▸ hq)

/-- C3: the cross-referencer counts one missing-file finding per manifest
pair absent from disk and one orphan-file finding per disk pair absent from
the manifest (as sets of pairs, under injectivity of the `ch<N>/<unit>` key
on the pairs involved), its verdict is pass iff the two sets of pairs are
equal, and the whole count is invariant under reordering of either list. -/
theorem cross_reference_set_semantics
    (tsRefs actualFiles tsRefs2 actualFiles2 : List (Nat × String))
    (hperm1 : tsRefs.Perm tsRefs2) (hperm2 : actualFiles.Perm actualFiles2)
    (hinj : ∀ p ∈ tsRefs ++ actualFiles, ∀ q ∈ tsRefs ++ actualFiles,
        pairKey p = pairKey q → p = q) :
    missingFileCount tsRefs actualFiles = (tsRefs.toFinset \ actualFiles.toFinset).card ∧
    orphanFileCount tsRefs actualFiles = (actualFiles.toFinset \ tsRefs.toFinset).card ∧
    (crossPass tsRefs actualFiles = true ↔ tsRefs.toFinset = actualFiles.toFinset) ∧
    crossIssueCount tsRefs actualFiles = crossIssueCount tsRefs2 actualFiles2 := by
  have hinjST : ∀ p ∈ tsRefs.toFinset, ∀ q ∈ actualFiles.toFinset,
      pairKey p = pairKey q → p = q := by
    intro p hp q hq
    exact hinj p (by simp [List.mem_toFinset.mp hp]) q (by simp [List.mem_toFinset.mp hq])
  have hinjTS : ∀ p ∈ actualFiles.toFinset, ∀ q ∈ tsRefs.toFinset,
      pairKey p = pairKey q → p = q := by
    intro p hp q hq
    exact hinj p (by simp [List.mem_toFinset.mp hp]) q (by simp [List.mem_toFinset.mp hq])
  have hmiss : missingFileCount tsRefs actualFiles
      = (tsRefs.toFinset \ actualFiles.toFinset).card := by
    unfold missingFileCount
    rw [keySet_eq_image, keySet_eq_image, image_sdiff_of_inj hinjST]
    apply Finset.card_image_of_injOn
    intro p hp q hq hkey
    have hp2 : p ∈ tsRefs.toFinset := (Finset.mem_sdiff.mp hp).1
    have hq2 : q ∈ tsRefs.toFinset := (Finset.mem_sdiff.mp hq).1
    exact hinj p (by simp [List.mem_toFinset.mp hp2]) q (by simp [List.mem_toFinset.mp hq2]) hkey
  have horph : orphanFileCount tsRefs actualFiles
      = (actualFiles.toFinset \ tsRefs.toFinset).card := by
    unfold orphanFileCount
    rw [keySet_eq_image, keySet_eq_image, image_sdiff_of_inj hinjTS]
    apply Finset.card_image_of_injOn
    intro p hp q hq hkey
    have hp2 : p ∈ actualFiles.toFinset := (Finset.mem_sdiff.mp hp).1
    have hq2 : q ∈ actualFiles.toFinset := (Finset.mem_sdiff.mp hq).1
    exact hinj p (by simp [List.mem_toFinset.mp hp2]) q (by simp [List.mem_toFinset.mp hq2]) hkey
  refine ⟨hmiss, horph, ?_, ?_⟩
  · unfold crossPass crossIssueCount
    rw [hmiss, horph]
    simp only [decide_eq_true_eq, Nat.add_eq_zero, Finset.card_eq_zero,
      Finset.sdiff_eq_empty_iff_subset]
    constructor
    · rintro ⟨h1, h2⟩
      exact Finset.Subset.antisymm h1 h2
    · intro heqq
      rw [heqq]
      exact ⟨subset_refl _, subset_refl _⟩
  · unfold crossIssueCount missingFileCount orphanFileCount keySet
    rw [List.toFinset_eq_of_perm _ _ (hperm1.map pairKey),
      List.toFinset_eq_of_perm _ _ (hperm2.map pairKey)]

/-- Witness for C3 at concrete manifest and disk lists: `ch3/unit2` matches,
`ch3/unit9` is an orphan. -/
theorem cross_reference_witness :
    missingFileCount [(3, "unit2")] [(3, "unit2"), (3, "unit9")]
      = ([(3, "unit2")].toFinset \ [(3, "unit2"), (3, "unit9")].toFinset).card ∧
    orphanFileCount [(3, "unit2")] [(3, "unit2"), (3, "unit9")]
      = ([(3, "unit2"), (3, "unit9")].toFinset \ [(3, "unit2")].toFinset).card ∧
    (crossPass [(3, "unit2")] [(3, "unit2"), (3, "unit9")] = true
      ↔ ([(3, "unit2")] : List (Nat × String)).toFinset = [(3, "unit2"), (3, "unit9")].toFinset) ∧
    crossIssueCount [(3, "unit2")] [(3, "unit2"), (3, "unit9")]
      = crossIssueCount [(3, "unit2")] [(3, "unit9"), (3, "unit2")] :=
  cross_reference_set_semantics [(3, "unit2")] [(3, "unit2"), (3, "unit9")]
    [(3, "unit2")] [(3, "unit9"), (3, "unit2")]
    (List.Perm.refl _) (by decide) (by decide)

theorem topPresenceLoop_general (rel : String) (data : JSON) :
    ∀ fields : List String, ∀ i ∈ topPresenceLoop rel data fields,
      i.sectionType = "general" := by
  intro fields
  induction fields with
  | nil => intro i hi; simp [topPresenceLoop] at hi
  | cons f fs ih =>
      intro i hi
      simp only [topPresenceLoop, List.mem_append] at hi
      rcases hi with hi | hi
      · split at hi
        · simp at hi
        · simp only [List.mem_singleton] at hi
          rw [hi]
          rfl
      · exact ih i hi

theorem topFieldIssues_general (rel : String) (data : JSON) :
    ∀ i ∈ topFieldIssues rel data, i.sectionType = "general" := by
  intro i hi
  unfold topFieldIssues at hi
  simp only [List.mem_append] at hi
  rcases hi with ((hi | hi) | hi) | hi
  · exact topPresenceLoop_general rel data _ i hi
  · split at hi
    · simp only [List.mem_singleton] at hi; rw [hi]; rfl
    · simp at hi
  · split at hi
    · simp only [List.mem_singleton] at hi; rw [hi]; rfl
    · simp at hi
  · split at hi
    · simp only [List.mem_singleton] at hi; rw [hi]; rfl
    · simp at hi

/-- C7 (amended): when `sections` is absent or not a sequence, `auditUnit`
emits the one cannot-continue Issue right after the general top-level field
Issues and stops — its entire output is those general Issues plus that one
Issue, all of category `general`; no section-level check, no missing-section
check, and no content scan contributes anything.  (When `sections` is absent
or null, the top-level presence check has already emitted its own Issue, so
two Issues mention `sections` in that case, not exactly one.) -/
theorem audit_stops_without_sections (rel : String) (data : JSON)
    (h : isArrOpt (data.get "sections") = false) :
    auditUnit rel data = topFieldIssues rel data ++ [ccIssue rel] ∧
    ∀ i ∈ auditUnit rel data, i.sectionType = "general" := by
  have hmain : auditUnit rel data = topFieldIssues rel data ++ [ccIssue rel] := by
    unfold auditUnit
    split
    · next ss heq =>
        rw [heq] at h
        simp [isArrOpt] at h
    · rfl
  refine ⟨hmain, ?_⟩
  intro i hi
  rw [hmain] at hi
  simp only [List.mem_append, List.mem_singleton] at hi
  rcases hi with hi | hi
  · exact topFieldIssues_general rel data i hi
  · rw [hi]; rfl

/-- Witness for C7's amended theorem at a document lacking `sections`. -/
theorem audit_stops_without_sections_witness :
    auditUnit "f" noSectionsDoc = topFieldIssues "f" noSectionsDoc ++ [ccIssue "f"] ∧
    ∀ i ∈ auditUnit "f" noSectionsDoc, i.sectionType = "general" :=
  audit_stops_without_sections "f" noSectionsDoc (by decide)

/-- Counterexample to C7 as stated: with `sections` absent the validator
emits two Issues (the missing-top-level-field Issue and the cannot-continue
Issue), not exactly one. -/
theorem audit_stops_without_sections_counterexample :
    noSectionsDoc.get "sections" = none ∧ (auditUnit "f" noSectionsDoc).length = 2 :=
  ⟨rfl, by decide⟩

/-- C8: both content scanners are stateless and idempotent — the entries a
scan appends to its results accumulator depend only on the scanned tree (not
on the accumulated results of previously scanned documents), and scanning
the same tree a second time appends an identical result set. -/
theorem scanners_stateless_idempotent (j : JSON) (p : String)
    (res : List String) (resF : List (String × String)) :
    findEmptyStrings j p res = res ++ findEmptyStrings j p [] ∧
    findForbiddenNames j p resF = resF ++ findForbiddenNames j p [] ∧
    findEmptyStrings j p (findEmptyStrings j p res)
      = res ++ findEmptyStrings j p [] ++ findEmptyStrings j p [] ∧
    findForbiddenNames j p (findForbiddenNames j p resF)
      = resF ++ findForbiddenNames j p [] ++ findForbiddenNames j p [] := by
  refine ⟨fe_acc j p res, ff_acc j p resF, ?_, ?_⟩
  · rw [fe_acc j p res]
    exact fe_acc j p _
  · rw [ff_acc j p resF]
    exact ff_acc j p _

theorem str_ne_of_head_ne {a b : String} (c d : Char) (ha : a.data.head? = some c)
    (hb : b.data.head? = some d) (hcd : c ≠ d) : a ≠ b := by
  intro he
  rw [he] at ha
  rw [ha] at hb
  injection hb with h
  exact hcd h

theorem mkNoCorrect_ne_mkBadCorrect (filePath pfx : String) (i : Nat) (v ctx : String) :
    mkNoCorrect filePath pfx i ≠ mkBadCorrect filePath pfx i v ctx := by
  intro he
  have hp := congrArg Issue.problem he
  simp only [mkNoCorrect, mkBadCorrect, String.append_assoc] at hp
  have h2 := str_app_left_cancel hp
  have h3 := congrArg (fun s : String => s.data.head?) h2
  simp [String.data_append] at h3

/-- C4 (amended): per quiz question, the options check emits exactly one
Issue naming the actual count whenever `options` is an array of length other
than 4 and none at length 4, and the correct check emits no Issue exactly
when `correct` is a number in [0,3] — non-integer numbers in range are
accepted — and exactly one Issue citing the value for any other present
`correct`; four options with `correct == 2` yield no Issue from either
check. -/
theorem quiz_options_correct_checks (filePath pfx : String) (i : Nat) (q : JSON) :
    (∀ os : List JSON, q.get "options" = some (.arr os) →
      quizOptionsCheck filePath pfx i q
        = if os.length ≠ 4 then [mkOptionCount filePath pfx i os.length (quizCtx q)]
          else []) ∧
    (∀ v : JSON, q.get "correct" = some v → v ≠ .null →
      ((quizCorrectCheck filePath pfx i q = [] ↔ ∃ x : ℚ, v = .num x ∧ 0 ≤ x ∧ x ≤ 3) ∧
       ((¬ ∃ x : ℚ, v = .num x ∧ 0 ≤ x ∧ x ≤ 3) →
         quizCorrectCheck filePath pfx i q
           = [mkBadCorrect filePath pfx i (jsRepr v) (quizCtx q)]))) := by
  constructor
  · intro os heq
    unfold quizOptionsCheck
    rw [heq]
    simp only [truthy, JSON.truthyV, if_true]
  · intro v heq hnn
    constructor
    · constructor
      · intro hzero
        unfold quizCorrectCheck at hzero
        rw [heq] at hzero
        cases v with
        | null => exact absurd rfl hnn
        | num x =>
            simp only [present, if_true] at hzero
            by_cases hr : x < 0 ∨ 3 < x
            · rw [if_pos hr] at hzero
              simp at hzero
            · push_neg at hr
              exact ⟨x, rfl, hr.1, hr.2⟩
        | str s => simp [present] at hzero
        | bool b => simp [present] at hzero
        | arr xs => simp [present] at hzero
        | obj fs => simp [present] at hzero
      · rintro ⟨x, rfl, hx0, hx3⟩
        unfold quizCorrectCheck
        rw [heq]
        simp only [present, if_true]
        rw [if_neg (by push_neg; exact ⟨hx0, hx3⟩)]
    · intro hnot
      unfold quizCorrectCheck
      rw [heq]
      cases v with
      | null => exact absurd rfl hnn
      | num x =>
          simp only [present, if_true]
          rw [if_pos (by by_contra hc; push_neg at hc; exact hnot ⟨x, rfl, hc.1, hc.2⟩)]
      | str s => simp [present]
      | bool b => simp [present]
      | arr xs => simp [present]
      | obj fs => simp [present]

/-- Witness for C4's amended theorem: a 3-option question gets exactly one
Issue citing 3; `correct: 4` gets exactly one Issue citing 4; 4 options with
`correct: 2` get none from either check. -/
theorem quiz_options_correct_checks_witness :
    quizOptionsCheck "f" "p" 0
      (.obj [("question", .str "Q"), ("options", .arr [.str "A", .str "B", .str "C"])])
      = [mkOptionCount "f" "p" 0 3 "Q"] ∧
    quizCorrectCheck "f" "p" 0 (.obj [("question", .str "Q"), ("correct", .num 4)])
      = [mkBadCorrect "f" "p" 0 "4" "Q"] ∧
    quizOptionsCheck "f" "p" 0
      (.obj [("question", .str "Q"),
             ("options", .arr [.str "A", .str "B", .str "C", .str "D"]),
             ("correct", .num 2)])
      = [] ∧
    quizCorrectCheck "f" "p" 0
      (.obj [("question", .str "Q"),
             ("options", .arr [.str "A", .str "B", .str "C", .str "D"]),
             ("correct", .num 2)])
      = [] := by
  refine ⟨?_, ?_, ?_, ?_⟩
  · have h := (quiz_options_correct_checks "f" "p" 0
      (.obj [("question", .str "Q"), ("options", .arr [.str "A", .str "B", .str "C"])])).1
      [.str "A", .str "B", .str "C"] rfl
    rw [h]
    rfl
  · have h := ((quiz_options_correct_checks "f" "p" 0
      (.obj [("question", .str "Q"), ("correct", .num 4)])).2
      (.num 4) rfl (by intro hc; cases hc)).2
    rw [h]
    · rfl
    · rintro ⟨x, hx, hx0, hx3⟩
      injection hx with hx2
      rw [← hx2] at hx3
      norm_num at hx3
  · have h := (quiz_options_correct_checks "f" "p" 0
      (.obj [("question", .str "Q"),
             ("options", .arr [.str "A", .str "B", .str "C", .str "D"]),
             ("correct", .num 2)])).1
      [.str "A", .str "B", .str "C", .str "D"] rfl
    rw [h]
    norm_num
  · exact ((quiz_options_correct_checks "f" "p" 0
      (.obj [("question", .str "Q"),
             ("options", .arr [.str "A", .str "B", .str "C", .str "D"]),
             ("correct", .num 2)])).2
      (.num 2) rfl (by intro hc; cases hc)).1.mpr ⟨2, rfl, by norm_num, by norm_num⟩

/-- Counterexample to C4 as stated: `correct: 2.5` is present and is not an
integer in [0,3], yet the quiz validator emits no Issue whatsoever for the
question — the source only rejects non-numbers and out-of-range numbers. -/
theorem quiz_correct_integer_counterexample :
    checkQuiz halfCorrectQuizSec "f" 0 = [] ∧
    (mkRat 5 2).den ≠ 1 ∧ 0 ≤ mkRat 5 2 ∧ mkRat 5 2 ≤ 3 := by
  refine ⟨by decide, by decide, by decide, by decide⟩

theorem present_false_iff (o : Option JSON) :
    present o = false ↔ (o = none ∨ o = some .null) := by
  match o with
  | none => simp [present]
  | some .null => simp [present]
  | some (.str s) => simp [present]
  | some (.num q) => simp [present]
  | some (.bool b) => simp [present]
  | some (.arr xs) => simp [present]
  | some (.obj fs) => simp [present]

/-- C9: the quiz validator's `question` and `explanation` checks test
truthiness, so a field present but equal to the empty string is reported
with a missing-field Issue, while `correct` is reported missing exactly when
it is undefined or null — in particular `correct == 0` is accepted as
present. -/
theorem quiz_truthiness_and_correct_presence (filePath pfx : String) (i : Nat) (q : JSON) :
    (∀ s : String, q.get "question" = some (.str s) →
      (quizQuestionCheck filePath pfx i q = [mkNoQuestion filePath pfx i] ↔ s = "")) ∧
    (∀ s : String, q.get "explanation" = some (.str s) →
      (quizExplanationCheck filePath pfx i q
        = [mkNoExplanation filePath pfx i (quizCtx q)] ↔ s = "")) ∧
    (quizCorrectCheck filePath pfx i q = [mkNoCorrect filePath pfx i]
      ↔ (q.get "correct" = none ∨ q.get "correct" = some .null)) ∧
    (q.get "correct" = some (.num 0) → quizCorrectCheck filePath pfx i q = []) := by
  refine ⟨?_, ?_, ?_, ?_⟩
  · intro s heq
    unfold quizQuestionCheck
    rw [heq]
    by_cases hs : s = ""
    · subst hs
      simp [truthy, JSON.truthyV]
    · simp [truthy, JSON.truthyV, hs]
  · intro s heq
    unfold quizExplanationCheck
    rw [heq]
    by_cases hs : s = ""
    · subst hs
      simp [truthy, JSON.truthyV]
    · simp [truthy, JSON.truthyV, hs]
  · rw [← present_false_iff]
    constructor
    · intro hmk
      by_contra hp
      have hp2 : present (q.get "correct") = true := by
        cases hpp : present (q.get "correct")
        · exact absurd hpp hp
        · rfl
      unfold quizCorrectCheck at hmk
      rw [hp2] at hmk
      simp only [if_true] at hmk
      split at hmk
      · next x =>
          split at hmk
          · next =>
              have := List.head_eq_of_cons_eq hmk
              exact absurd this.symm (mkNoCorrect_ne_mkBadCorrect filePath pfx i _ _)
          · simp at hmk
      · next v hv1 =>
          have := List.head_eq_of_cons_eq hmk
          exact absurd this.symm (mkNoCorrect_ne_mkBadCorrect filePath pfx i _ _)
      · simp at hmk
    · intro hp
      unfold quizCorrectCheck
      rw [hp]
      rfl
  · intro heq
    unfold quizCorrectCheck
    rw [heq]
    simp only [present, if_true]
    norm_num

/-- Witness for C9 at concrete questions: empty `question` is flagged
missing, `correct: 0` is accepted, `correct: null` is flagged missing. -/
theorem quiz_truthiness_witness :
    quizQuestionCheck "f" "p" 0 (.obj [("question", .str "")]) = [mkNoQuestion "f" "p" 0] ∧
    quizCorrectCheck "f" "p" 0 (.obj [("correct", .num 0)]) = [] ∧
    quizCorrectCheck "f" "p" 0 (.obj [("correct", .null)]) = [mkNoCorrect "f" "p" 0] := by
  refine ⟨?_, ?_, ?_⟩
  · exact ((quiz_truthiness_and_correct_presence "f" "p" 0
      (.obj [("question", .str "")])).1 "" rfl).mpr rfl
  · exact (quiz_truthiness_and_correct_presence "f" "p" 0
      (.obj [("correct", .num 0)])).2.2.2 rfl
  · exact ((quiz_truthiness_and_correct_presence "f" "p" 0
      (.obj [("correct", .null)])).2.2.1).mpr (Or.inr rfl)

theorem mkDupIssue_inj (filePath pfx : String) {w v : String}
    (h : mkDupIssue filePath pfx w = mkDupIssue filePath pfx v) : w = v := by
  have hp := congrArg Issue.problem h
  simp only [mkDupIssue] at hp
  exact str_app_left_cancel (str_app_right_cancel hp)

theorem dupScan_count (filePath pfx : String) (v : String) :
    ∀ (l : List JSON) (seen : List String),
      (dupScan filePath pfx l seen).count (mkDupIssue filePath pfx v)
        = if v ∈ seen then (l.map jsRepr).count v else (l.map jsRepr).count v - 1 := by
  intro l
  induction l with
  | nil =>
      intro seen
      simp only [dupScan, List.count_nil, List.map_nil]
      split <;> rfl
  | cons f rest ih =>
      intro seen
      have hstep : dupScan filePath pfx (f :: rest) seen
          = (if seen.contains (jsRepr f) then [mkDupIssue filePath pfx (jsRepr f)] else [])
            ++ dupScan filePath pfx rest (jsRepr f :: seen) := rfl
      rw [hstep, List.count_append, ih (jsRepr f :: seen)]
      have hsingle : ∀ c : Bool,
          ((if c then [mkDupIssue filePath pfx (jsRepr f)] else []).count
            (mkDupIssue filePath pfx v))
          = if c ∧ jsRepr f = v then 1 else 0 := by
        intro c
        cases c with
        | false => simp
        | true =>
            simp only [if_true, true_and]
            by_cases hfv : jsRepr f = v
            · rw [if_pos hfv, hfv]
              simp
            · rw [if_neg hfv]
              have : mkDupIssue filePath pfx (jsRepr f) ≠ mkDupIssue filePath pfx v :=
                fun hc => hfv (mkDupIssue_inj filePath pfx hc)
              simp [List.count_cons, this]
      rw [hsingle]
      simp only [List.map_cons, List.count_cons]
      by_cases hfv : jsRepr f = v
      · have hmem : v ∈ jsRepr f :: seen := by simp [hfv]
        rw [if_pos hmem]
        by_cases hs : v ∈ seen
        · have hc : seen.contains v = true := by simpa using hs
          rw [if_pos hs]
          rw [if_pos ⟨by rw [hfv]; exact hc, hfv⟩]
          simp [hfv]
          omega
        · have hc : seen.contains v = false := by simpa using hs
          rw [if_neg hs]
          rw [if_neg (fun hx => by rw [hfv] at hx; rw [hc] at hx; exact Bool.noConfusion hx.1)]
          simp [hfv]
      · have hmem : (v ∈ jsRepr f :: seen) ↔ v ∈ seen := by simp [hfv, Ne.symm hfv]
        rw [if_neg (fun hx => hfv hx.2)]
        have hbeq : (jsRepr f == v) = false := by
          simp [hfv]
        rw [hbeq]
        by_cases hs : v ∈ seen
        · rw [if_pos (hmem.mpr hs), if_pos hs]
          simp
        · rw [if_neg (fun hx => hs (hmem.mp hx)), if_neg hs]
          simp

theorem isEmptyStrV_shape {x : JSON} (h : isEmptyStrV x = true) : x = .str "" := by
  cases x with
  | str s =>
      by_cases hs : s = ""
      · rw [hs]
      · rw [isEmptyStrV_false_of_ne hs] at h
        exact Bool.noConfusion h
  | num q => exact Bool.noConfusion h
  | bool b => exact Bool.noConfusion h
  | null => exact Bool.noConfusion h
  | arr xs => exact Bool.noConfusion h
  | obj fs => exact Bool.noConfusion h

theorem count_filter_keys (v : String) (hv : v ≠ "") :
    ∀ l : List JSON,
      ((l.filter fun f => !(isEmptyStrV f)).map jsRepr).count v
        = (l.map jsRepr).count v := by
  intro l
  induction l with
  | nil => simp
  | cons x rest ih =>
      by_cases hx : isEmptyStrV x = true
      · have hxe := isEmptyStrV_shape hx
        subst hxe
        have hfeq : List.filter (fun f => !isEmptyStrV f) (JSON.str "" :: rest)
            = List.filter (fun f => !isEmptyStrV f) rest := by
          simp [List.filter_cons, hx]
        rw [hfeq, ih, List.map_cons, List.count_cons]
        have hne : (jsRepr (JSON.str "") == v) = false := by
          have hrepr : jsRepr (JSON.str "") = "" := rfl
          simp [hrepr, Ne.symm hv]
        rw [hne]
        simp
      · have hx2 : (!isEmptyStrV x) = true := by simp [hx]
        have hfeq : List.filter (fun f => !isEmptyStrV f) (x :: rest)
            = x :: List.filter (fun f => !isEmptyStrV f) rest := by
          simp [List.filter_cons, hx2]
        rw [hfeq, List.map_cons, List.map_cons, List.count_cons, List.count_cons, ih]

/-- C5 (amended): within one flashcards section, duplicate detection runs
against a seen-map that inherits `Object.prototype`.  For keys that are not
prototype property names, each repeat occurrence of a duplicate non-empty
key (a card's `japanese`, falling back to `front`) yields exactly one
Issue — per value, the number of duplicate Issues is the number of
occurrences minus one, the first occurrence never being flagged — while a
key equal to a prototype property name is flagged at every occurrence, the
first included.  A card exposing `front` or `back` gets one legacy-format
Issue plus one missing-field Issue per absent current-format field. -/
theorem flashcards_dup_and_legacy (filePath pfx : String) :
    (∀ (cards : List JSON) (v : String), v ≠ "" → v ∉ protoKeys →
      (dupScan filePath pfx (frontsOf cards) protoKeys).count (mkDupIssue filePath pfx v)
        = ((cards.map cardKey).map jsRepr).count v - 1) ∧
    (∀ (cards : List JSON) (v : String), v ≠ "" → v ∈ protoKeys →
      (dupScan filePath pfx (frontsOf cards) protoKeys).count (mkDupIssue filePath pfx v)
        = ((cards.map cardKey).map jsRepr).count v) ∧
    (∀ (f : JSON) (l : List JSON), jsRepr f ∉ protoKeys →
      dupScan filePath pfx (f :: l) protoKeys
        = dupScan filePath pfx l (jsRepr f :: protoKeys)) ∧
    (∀ (v : String) (c1 c2 : JSON), v ≠ "" → v ∉ protoKeys →
      cardKey c1 = .str v → cardKey c2 = .str v →
      dupScan filePath pfx (frontsOf [c1, c2]) protoKeys = [mkDupIssue filePath pfx v]) ∧
    (∀ (i : Nat) (card : JSON) (v : JSON), card.get "front" = some v →
      (∀ f ∈ cardRequiredFields, present (card.get f) = true) →
      cardIssues filePath pfx i card = [mkLegacyIssue filePath pfx i]) ∧
    (∀ (i : Nat) (card : JSON) (v : JSON), card.get "front" = some v →
      card.get "japanese" = none → card.get "reading" = none →
      present (card.get "romaji") = true → present (card.get "chinese") = true →
      cardIssues filePath pfx i card
        = [mkLegacyIssue filePath pfx i,
           mkCardMissing filePath pfx i "japanese" (cardCtx card),
           mkCardMissing filePath pfx i "reading" (cardCtx card)]) := by
  refine ⟨?_, ?_, ?_, ?_, ?_, ?_⟩
  · intro cards v hv hnp
    rw [dupScan_count filePath pfx v (frontsOf cards) protoKeys]
    rw [if_neg hnp]
    unfold frontsOf
    rw [count_filter_keys v hv]
  · intro cards v hv hp
    rw [dupScan_count filePath pfx v (frontsOf cards) protoKeys]
    rw [if_pos hp]
    unfold frontsOf
    rw [count_filter_keys v hv]
  · intro f l hnp
    have hc : protoKeys.contains (jsRepr f) = false := by simpa using hnp
    simp [dupScan, hc]
    exact hnp
  · intro v c1 c2 hv hnp hk1 hk2
    have hc0 : protoKeys.contains v = false := by simpa using hnp
    unfold frontsOf
    simp only [List.map_cons, List.map_nil, hk1, hk2]
    rw [List.filter_cons_of_pos (by rw [isEmptyStrV_false_of_ne hv]; rfl),
      List.filter_cons_of_pos (by rw [isEmptyStrV_false_of_ne hv]; rfl)]
    simp only [List.filter_nil]
    have hrepr : jsRepr (JSON.str v) = v := rfl
    simp [dupScan, hrepr, hc0]
    exact hnp
  · intro i card v hfront hfields
    unfold cardIssues
    rw [cardFieldLoop_clean filePath pfx i card cardRequiredFields hfields]
    rw [if_pos (by rw [hfront]; simp)]
    rfl
  · intro i card v hfront hjap hread hrom hch
    unfold cardIssues
    rw [if_pos (by rw [hfront]; simp)]
    simp only [cardRequiredFields, cardFieldLoop, hjap, hread, hrom, hch]
    simp [present]

/-- Witness for C5's amended theorem: two cards sharing `japanese: "こんにちは"`
give exactly one duplicate Issue; two cards sharing the prototype-named key
`japanese: "toString"` are both counted; a legacy card with `front`/`back`
and all four current fields gives exactly the one legacy Issue. -/
theorem flashcards_dup_and_legacy_witness :
    (dupScan "f" "p" (frontsOf
        [.obj [("japanese", .str "こんにちは")], .obj [("japanese", .str "こんにちは")]])
        protoKeys).count (mkDupIssue "f" "p" "こんにちは")
      = (([.obj [("japanese", .str "こんにちは")], .obj [("japanese", .str "こんにちは")]].map
          cardKey).map jsRepr).count "こんにちは" - 1 ∧
    (dupScan "f" "p" (frontsOf
        [.obj [("japanese", .str "toString")], .obj [("japanese", .str "toString")]])
        protoKeys).count (mkDupIssue "f" "p" "toString")
      = (([.obj [("japanese", .str "toString")], .obj [("japanese", .str "toString")]].map
          cardKey).map jsRepr).count "toString" ∧
    dupScan "f" "p" (frontsOf
        [.obj [("japanese", .str "こんにちは")], .obj [("japanese", .str "こんにちは")]]) protoKeys
      = [mkDupIssue "f" "p" "こんにちは"] ∧
    cardIssues "f" "p" 0
      (.obj [("front", .str "hi"), ("back", .str "你好"), ("japanese", .str "こんにちは"),
             ("reading", .str "こんにちは"), ("romaji", .str "konnichiwa"),
             ("chinese", .str "你好")])
      = [mkLegacyIssue "f" "p" 0] := by
  refine ⟨?_, ?_, ?_, ?_⟩
  · exact (flashcards_dup_and_legacy "f" "p").1 _ "こんにちは" (by decide) (by decide)
  · exact (flashcards_dup_and_legacy "f" "p").2.1 _ "toString" (by decide) (by decide)
  · exact (flashcards_dup_and_legacy "f" "p").2.2.2.1 "こんにちは" _ _ (by decide) (by decide)
      rfl rfl
  · exact (flashcards_dup_and_legacy "f" "p").2.2.2.2.1 0 _ (.str "hi") rfl (by decide)

/-- Counterexample to C5 as stated: two cards share the same `japanese`
value — the empty string — yet the flashcards validator emits no duplicate
Issue at all (empty keys are filtered out of duplicate detection); and two
cards sharing `japanese: "constructor"` get two duplicate Issues, not one,
because `seen = {}` inherits that key truthily from `Object.prototype`, so
even the first occurrence is flagged. -/
theorem flashcards_dup_counterexample :
    emptyJapCard.get "japanese" = some (.str "") ∧
    checkFlashcards emptyDupFlashSec "f" 0 = [] ∧
    (JSON.obj [("japanese", .str "constructor"), ("reading", .str "r"),
               ("romaji", .str "ro"), ("chinese", .str "c")]).get "japanese"
      = some (.str "constructor") ∧
    (checkFlashcards
      (.obj [("type", .str "flashcards"), ("title", .str "t"),
             ("cards", .arr
               [.obj [("japanese", .str "constructor"), ("reading", .str "r"),
                      ("romaji", .str "ro"), ("chinese", .str "c")],
                .obj [("japanese", .str "constructor"), ("reading", .str "r"),
                      ("romaji", .str "ro"), ("chinese", .str "c")]])])
      "f" 0).length = 2 := by
  refine ⟨rfl, by decide, rfl, by decide⟩

/-- C10 (amended): duplicate detection keys each card on its `japanese`
value with fallback to `front` and excludes empty keys — cards lacking both
(or having them falsy) never contribute a duplicate Issue; two legacy cards
sharing one non-empty `front` value that is not an `Object.prototype`
property name produce exactly one duplicate Issue, while a shared `front`
equal to a prototype property name is flagged at both occurrences. -/
theorem flashcards_dup_keying (filePath pfx : String) :
    (∀ card : JSON, cardKey card
        = jsOr (card.get "japanese") (jsOr (card.get "front") (.str ""))) ∧
    (∀ cards : List JSON, (∀ c ∈ cards, isEmptyStrV (cardKey c) = true) →
      dupScan filePath pfx (frontsOf cards) protoKeys = []) ∧
    (∀ (v : String) (c1 c2 : JSON), v ≠ "" → v ∉ protoKeys →
      c1.get "japanese" = none → c1.get "front" = some (.str v) →
      c2.get "japanese" = none → c2.get "front" = some (.str v) →
      dupScan filePath pfx (frontsOf [c1, c2]) protoKeys = [mkDupIssue filePath pfx v]) ∧
    (∀ (v : String) (c1 c2 : JSON), v ≠ "" → v ∈ protoKeys →
      c1.get "japanese" = none → c1.get "front" = some (.str v) →
      c2.get "japanese" = none → c2.get "front" = some (.str v) →
      dupScan filePath pfx (frontsOf [c1, c2]) protoKeys
        = [mkDupIssue filePath pfx v, mkDupIssue filePath pfx v]) := by
  refine ⟨fun card => rfl, ?_, ?_, ?_⟩
  · intro cards hall
    have hempty : frontsOf cards = [] := by
      unfold frontsOf
      rw [List.filter_eq_nil_iff.mpr]
      intro a ha
      obtain ⟨c, hc, rfl⟩ := List.mem_map.mp ha
      simp [hall c hc]
    rw [hempty]
    rfl
  · intro v c1 c2 hv hnp hj1 hf1 hj2 hf2
    have hk1 : cardKey c1 = .str v := by
      simp [cardKey, hj1, hf1, jsOr, JSON.truthyV, hv]
    have hk2 : cardKey c2 = .str v := by
      simp [cardKey, hj2, hf2, jsOr, JSON.truthyV, hv]
    have hc0 : protoKeys.contains v = false := by simpa using hnp
    unfold frontsOf
    simp only [List.map_cons, List.map_nil, hk1, hk2]
    rw [List.filter_cons_of_pos (by rw [isEmptyStrV_false_of_ne hv]; rfl),
      List.filter_cons_of_pos (by rw [isEmptyStrV_false_of_ne hv]; rfl)]
    simp only [List.filter_nil]
    have hrepr : jsRepr (JSON.str v) = v := rfl
    simp [dupScan, hrepr, hc0]
    exact hnp
  · intro v c1 c2 hv hp hj1 hf1 hj2 hf2
    have hk1 : cardKey c1 = .str v := by
      simp [cardKey, hj1, hf1, jsOr, JSON.truthyV, hv]
    have hk2 : cardKey c2 = .str v := by
      simp [cardKey, hj2, hf2, jsOr, JSON.truthyV, hv]
    have hc0 : protoKeys.contains v = true := by simpa using hp
    unfold frontsOf
    simp only [List.map_cons, List.map_nil, hk1, hk2]
    rw [List.filter_cons_of_pos (by rw [isEmptyStrV_false_of_ne hv]; rfl),
      List.filter_cons_of_pos (by rw [isEmptyStrV_false_of_ne hv]; rfl)]
    simp only [List.filter_nil]
    have hrepr : jsRepr (JSON.str v) = v := rfl
    simp [dupScan, hrepr, hc0]
    rw [if_pos hp]
    rfl

/-- Witness for C10's amended theorem: two keyless cards give no duplicate
Issue; two legacy cards sharing `front: "hi"` give exactly one; two legacy
cards sharing the prototype-named `front: "toString"` give two. -/
theorem flashcards_dup_keying_witness :
    dupScan "f" "p" (frontsOf [.obj [("reading", .str "r")], .obj [("reading", .str "r")]])
      protoKeys = [] ∧
    dupScan "f" "p" (frontsOf
        [.obj [("front", .str "hi")], .obj [("front", .str "hi")]]) protoKeys
      = [mkDupIssue "f" "p" "hi"] ∧
    dupScan "f" "p" (frontsOf
        [.obj [("front", .str "toString")], .obj [("front", .str "toString")]]) protoKeys
      = [mkDupIssue "f" "p" "toString", mkDupIssue "f" "p" "toString"] := by
  refine ⟨?_, ?_, ?_⟩
  · exact (flashcards_dup_keying "f" "p").2.1
      [.obj [("reading", .str "r")], .obj [("reading", .str "r")]] (by decide)
  · exact (flashcards_dup_keying "f" "p").2.2.1 "hi" _ _ (by decide) (by decide) rfl rfl rfl rfl
  · exact (flashcards_dup_keying "f" "p").2.2.2 "toString" _ _ (by decide) (by decide)
      rfl rfl rfl rfl

/-- Counterexample to C10 as stated: two legacy cards sharing
`front: "toString"` produce two duplicate Issues, not one — `seen = {}`
inherits `Object.prototype`, so the lookup `seen["toString"]` is truthy
already at the first occurrence. -/
theorem flashcards_proto_front_counterexample :
    (JSON.obj [("front", .str "toString")]).get "japanese" = none ∧
    (JSON.obj [("front", .str "toString")]).get "front" = some (.str "toString") ∧
    "toString" ∈ protoKeys ∧
    dupScan "f" "p" (frontsOf [.obj [("front", .str "toString")],
                               .obj [("front", .str "toString")]]) protoKeys
      = [mkDupIssue "f" "p" "toString", mkDupIssue "f" "p" "toString"] := by
  refine ⟨rfl, rfl, by decide, by decide⟩

theorem nodupKeysGoA_mem {xs : List JSON} (h : nodupKeys.goA xs = true) :
    ∀ x ∈ xs, nodupKeys x = true := by
  induction xs with
  | nil => intro x hx; simp at hx
  | cons y ys ih =>
      intro x hx
      simp only [nodupKeys.goA, Bool.and_eq_true] at h
      rcases List.mem_cons.mp hx with rfl | hx
      · exact h.1
      · exact ih h.2 x hx

theorem nodupKeysGoO_mem {fs : List (String × JSON)} (h : nodupKeys.goO fs = true) :
    ∀ kv ∈ fs, nodupKeys kv.2 = true := by
  induction fs with
  | nil => intro kv hkv; simp at hkv
  | cons y ys ih =>
      intro kv hkv
      obtain ⟨k, v⟩ := y
      simp only [nodupKeys.goO, Bool.and_eq_true] at h
      rcases List.mem_cons.mp hkv with rfl | hkv
      · exact h.1
      · exact ih h.2 kv hkv

theorem lookupKey_mem {fs : List (String × JSON)} {k : String} {v : JSON}
    (h : JSON.get.lookupKey fs k = some v) : (k, v) ∈ fs := by
  induction fs with
  | nil => simp [JSON.get.lookupKey] at h
  | cons kv rest ih =>
      obtain ⟨k2, v2⟩ := kv
      unfold JSON.get.lookupKey at h
      by_cases hk : (k2 == k) = true
      · rw [if_pos hk] at h
        injection h with h2
        have : k2 = k := by simpa using hk
        subst this
        subst h2
        simp
      · rw [if_neg hk] at h
        exact List.mem_cons_of_mem _ (ih h)

theorem lookupKey_of_mem_nodup {fs : List (String × JSON)} {k : String} {v : JSON}
    (hnd : nodupStr (fs.map Prod.fst) = true) (hmem : (k, v) ∈ fs) :
    JSON.get.lookupKey fs k = some v := by
  induction fs with
  | nil => simp at hmem
  | cons kv rest ih =>
      obtain ⟨k2, v2⟩ := kv
      simp only [List.map_cons, nodupStr, Bool.and_eq_true, Bool.not_eq_true'] at hnd
      rcases List.mem_cons.mp hmem with heq | hmem2
      · injection heq with h1 h2
        subst h1
        subst h2
        unfold JSON.get.lookupKey
        rw [if_pos (by simp)]
      · unfold JSON.get.lookupKey
        have hk2 : (k2 == k) = false := by
          have hkin : k ∈ rest.map Prod.fst := List.mem_map_of_mem _ hmem2
          have hnot : k2 ∉ rest.map Prod.fst := by
            have := hnd.1
            simpa using this
          simp only [beq_eq_false_iff_ne, ne_eq]
          intro hc
          subst hc
          exact hnot hkin
        rw [if_neg (by simp [hk2])]
        exact ih hnd.2 hmem2

theorem feGoArr_mem {xs : List JSON} :
    ∀ (base : String) (i : Nat) (p : String),
      p ∈ findEmptyStrings.goArr xs base i [] ↔
        ∃ (n : Nat) (x : JSON), xs.get? n = some x ∧
          p ∈ findEmptyStrings x (base ++ "[" ++ toString (i + n) ++ "]") [] := by
  induction xs with
  | nil =>
      intro base i p
      simp [findEmptyStrings.goArr]
  | cons x rest ih =>
      intro base i p
      have hstep : findEmptyStrings.goArr (x :: rest) base i []
          = findEmptyStrings.goArr rest base (i + 1)
              (findEmptyStrings x (base ++ "[" ++ toString i ++ "]") []) := rfl
      have hacc := @feGoArr_acc rest
        (fun y _ py resy => fe_acc y py resy) base (i + 1)
        (findEmptyStrings x (base ++ "[" ++ toString i ++ "]") [])
      rw [hstep, hacc, List.mem_append]
      constructor
      · intro hp
        rcases hp with hp | hp
        · refine ⟨0, x, rfl, ?_⟩
          simpa using hp
        · obtain ⟨n, y, hget, hmem⟩ := (ih base (i + 1) p).mp hp
          refine ⟨n + 1, y, by simpa using hget, ?_⟩
          have harith : i + 1 + n = i + (n + 1) := by omega
          rwa [harith] at hmem
      · rintro ⟨n, y, hget, hmem⟩
        cases n with
        | zero =>
            left
            simp only [List.get?_cons_zero] at hget
            injection hget with hxy
            subst hxy
            simpa using hmem
        | succ n =>
            right
            refine (ih base (i + 1) p).mpr ⟨n, y, by simpa using hget, ?_⟩
            have harith : i + (n + 1) = i + 1 + n := by omega
            rwa [harith] at hmem

theorem feGoObj_mem {fs : List (String × JSON)} :
    ∀ (base : String) (p : String),
      p ∈ findEmptyStrings.goObj fs base [] ↔
        ∃ (k : String) (v : JSON), (k, v) ∈ fs ∧
          p ∈ findEmptyStrings v (base ++ "." ++ k) [] := by
  induction fs with
  | nil =>
      intro base p
      simp [findEmptyStrings.goObj]
  | cons kv rest ih =>
      obtain ⟨k2, v2⟩ := kv
      intro base p
      have hstep : findEmptyStrings.goObj ((k2, v2) :: rest) base []
          = findEmptyStrings.goObj rest base
              (findEmptyStrings v2 (base ++ "." ++ k2) []) := rfl
      have hacc := @feGoObj_acc rest
        (fun y _ py resy => fe_acc y.2 py resy) base
        (findEmptyStrings v2 (base ++ "." ++ k2) [])
      rw [hstep, hacc, List.mem_append]
      constructor
      · intro hp
        rcases hp with hp | hp
        · exact ⟨k2, v2, by simp, hp⟩
        · obtain ⟨k, v, hmem, hp2⟩ := (ih base p).mp hp
          exact ⟨k, v, by simp [hmem], hp2⟩
      · rintro ⟨k, v, hmem, hp2⟩
        rcases List.mem_cons.mp hmem with heq | hmem2
        · left
          injection heq with h1 h2
          subst h1
          subst h2
          exact hp2
        · right
          exact (ih base p).mpr ⟨k, v, hmem2, hp2⟩

theorem fe_mem_iff : ∀ (j : JSON), nodupKeys j = true → ∀ (base p : String),
    (p ∈ findEmptyStrings j base [] ↔
      ∃ pe, renderPath base pe = p ∧ valueAt pe j = some (.str "")) := by
  have H : ∀ (m : Nat) (j : JSON), sizeOf j ≤ m → nodupKeys j = true → ∀ (base p : String),
      (p ∈ findEmptyStrings j base [] ↔
        ∃ pe, renderPath base pe = p ∧ valueAt pe j = some (.str "")) := by
    intro m
    induction m with
    | zero =>
        intro j h
        cases j <;> simp_all
    | succ m ih =>
        intro j hsz hnd base p
        match j with
        | .str s =>
            constructor
            · intro hp
              unfold findEmptyStrings at hp
              by_cases hs : s = ""
              · rw [if_pos hs] at hp
                simp only [List.nil_append, List.mem_singleton] at hp
                subst hp
                subst hs
                exact ⟨[], rfl, rfl⟩
              · rw [if_neg hs] at hp
                simp at hp
            · rintro ⟨pe, hrender, hval⟩
              match pe, hval with
              | [], hval =>
                  injection hval with hval2
                  injection hval2 with hval3
                  subst hval3
                  subst hrender
                  simp [findEmptyStrings, renderPath]
        | .num q =>
            constructor
            · intro hp; simp [findEmptyStrings] at hp
            · rintro ⟨pe, hrender, hval⟩
              match pe, hval with
              | [], hval => exact absurd hval (by simp [valueAt])
        | .bool b =>
            constructor
            · intro hp; simp [findEmptyStrings] at hp
            · rintro ⟨pe, hrender, hval⟩
              match pe, hval with
              | [], hval => exact absurd hval (by simp [valueAt])
        | .null =>
            constructor
            · intro hp; simp [findEmptyStrings] at hp
            · rintro ⟨pe, hrender, hval⟩
              match pe, hval with
              | [], hval => exact absurd hval (by simp [valueAt])
        | .arr xs =>
            have hndx : ∀ x ∈ xs, nodupKeys x = true :=
              nodupKeysGoA_mem (by simpa [nodupKeys] using hnd)
            have hihx : ∀ x ∈ xs, ∀ base2 p2,
                (p2 ∈ findEmptyStrings x base2 [] ↔
                  ∃ pe, renderPath base2 pe = p2 ∧ valueAt pe x = some (.str "")) := by
              intro x hm
              have h1 : sizeOf x < sizeOf xs := List.sizeOf_lt_of_mem hm
              have h2 : sizeOf (JSON.arr xs) = 1 + sizeOf xs := by simp
              exact ih x (by omega) (hndx x hm)
            constructor
            · intro hp
              unfold findEmptyStrings at hp
              obtain ⟨n, x, hget, hmem⟩ := (feGoArr_mem base 0 p).mp hp
              have hser : (0 + n) = n := by omega
              rw [hser] at hmem
              obtain ⟨pe, hrender, hval⟩ :=
                (hihx x (List.get?_mem hget) _ p).mp hmem
              refine ⟨.idx n :: pe, hrender, ?_⟩
              unfold valueAt
              rw [hget]
              exact hval
            · rintro ⟨pe, hrender, hval⟩
              match pe, hval with
              | .idx n :: rest, hval =>
                  unfold valueAt at hval
                  unfold findEmptyStrings
                  match hget : xs.get? n with
                  | some x =>
                      rw [hget] at hval
                      refine (feGoArr_mem base 0 p).mpr ⟨n, x, hget, ?_⟩
                      have hser : (0 + n) = n := by omega
                      rw [hser]
                      exact (hihx x (List.get?_mem hget) _ p).mpr ⟨rest, hrender, hval⟩
                  | none =>
                      rw [hget] at hval
                      exact absurd hval (by simp)
        | .obj fs =>
            have hnd2 : nodupStr (fs.map Prod.fst) = true ∧ nodupKeys.goO fs = true := by
              simpa [nodupKeys, Bool.and_eq_true] using hnd
            have hndv : ∀ kv ∈ fs, nodupKeys kv.2 = true := nodupKeysGoO_mem hnd2.2
            have hihv : ∀ kv ∈ fs, ∀ base2 p2,
                (p2 ∈ findEmptyStrings kv.2 base2 [] ↔
                  ∃ pe, renderPath base2 pe = p2 ∧ valueAt pe kv.2 = some (.str "")) := by
              intro kv hm
              have h1 : sizeOf kv < sizeOf fs := List.sizeOf_lt_of_mem hm
              have h2 : sizeOf (JSON.obj fs) = 1 + sizeOf fs := by simp
              have h3 : sizeOf kv.2 < sizeOf kv := by obtain ⟨a, b⟩ := kv; simp
              exact ih kv.2 (by omega) (hndv kv hm)
            constructor
            · intro hp
              unfold findEmptyStrings at hp
              obtain ⟨k, v, hmem, hp2⟩ := (feGoObj_mem base p).mp hp
              obtain ⟨pe, hrender, hval⟩ := (hihv (k, v) hmem _ p).mp hp2
              refine ⟨.key k :: pe, hrender, ?_⟩
              unfold valueAt
              rw [lookupKey_of_mem_nodup hnd2.1 hmem]
              exact hval
            · rintro ⟨pe, hrender, hval⟩
              match pe, hval with
              | .key k :: rest, hval =>
                  unfold valueAt at hval
                  unfold findEmptyStrings
                  match hlk : JSON.get.lookupKey fs k with
                  | some v =>
                      rw [hlk] at hval
                      have hmem := lookupKey_mem hlk
                      exact (feGoObj_mem base p).mpr
                        ⟨k, v, hmem, (hihv (k, v) hmem _ p).mpr ⟨rest, hrender, hval⟩⟩
                  | none =>
                      rw [hlk] at hval
                      exact absurd hval (by simp)
  intro j
  exact H (sizeOf j) j (le_refl _)

theorem mkEmptyIssue_inj {rel p q : String}
    (h : mkEmptyIssue rel q = mkEmptyIssue rel p) : q = p := by
  have hp := congrArg Issue.problem h
  simp only [mkEmptyIssue] at hp
  exact str_app_left_cancel hp

/-- C6 (amended): the empty-string scanner finds exactly the paths of the
string values that are empty anywhere in the document tree, and `auditUnit`
records an empty-string Issue exactly for the found paths whose rendering
starts with the text `root.sections` — in particular an empty top-level
`title` is never reported here.  (The filter is textual, so a top-level key
whose name merely begins with `sections` is also reported, even though it
lies outside the `sections` subtree.) -/
theorem empty_scanner_semantics (doc : JSON) (file : String)
    (hnd : nodupKeys doc = true) :
    (∀ p, p ∈ findEmptyStrings doc "root" [] ↔
      ∃ pe, renderPath "root" pe = p ∧ valueAt pe doc = some (.str "")) ∧
    (∀ p, mkEmptyIssue file p ∈ emptyStringIssues file doc ↔
      (p ∈ findEmptyStrings doc "root" [] ∧ jsStartsWith p "root.sections" = true)) ∧
    mkEmptyIssue file "root.title" ∉ emptyStringIssues file doc := by
  have hmem : ∀ p, mkEmptyIssue file p ∈ emptyStringIssues file doc ↔
      (p ∈ findEmptyStrings doc "root" [] ∧ jsStartsWith p "root.sections" = true) := by
    intro p
    unfold emptyStringIssues
    constructor
    · intro hin
      obtain ⟨q, hq, hqeq⟩ := List.mem_map.mp hin
      have : q = p := mkEmptyIssue_inj hqeq
      subst this
      exact ⟨(List.mem_filter.mp hq).1, (List.mem_filter.mp hq).2⟩
    · rintro ⟨hscan, hpfx⟩
      exact List.mem_map_of_mem _ (List.mem_filter.mpr ⟨hscan, hpfx⟩)
  refine ⟨fun p => fe_mem_iff doc hnd "root" p, hmem, ?_⟩
  intro hin
  have h2 := ((hmem "root.title").mp hin).2
  exact absurd h2 (by decide)

/-- Witness for C6's amended theorem at `sectionsXDoc`: the empty value of
the top-level field `sectionsX` is found by the scanner and reported (its
rendered path starts with the text `root.sections`), while an empty
top-level `title` would not be reported. -/
theorem empty_scanner_semantics_witness :
    mkEmptyIssue "f" "root.sectionsX" ∈ emptyStringIssues "f" sectionsXDoc ∧
    mkEmptyIssue "f" "root.title" ∉ emptyStringIssues "f" sectionsXDoc := by
  constructor
  · exact ((empty_scanner_semantics sectionsXDoc "f" (by decide)).2.1 "root.sectionsX").mpr
      ⟨by decide, by decide⟩
  · exact (empty_scanner_semantics sectionsXDoc "f" (by decide)).2.2

/-- Counterexample to C6 as stated: in `sectionsXDoc` the only empty string
sits at the top-level key `sectionsX` — outside the `sections` subtree,
whose own content is empty-string-free — yet `auditUnit` records an
empty-string Issue for it, because the filter is the textual test
`startsWith('root.sections')`. -/
theorem empty_scanner_outside_sections_counterexample :
    valueAt [.key "sectionsX"] sectionsXDoc = some (.str "") ∧
    underSections [PathElem.key "sectionsX"] = false ∧
    renderPath "root" [PathElem.key "sectionsX"] = "root.sectionsX" ∧
    valueAt [.key "sections"] sectionsXDoc = some (.arr [.str "x"]) ∧
    noEmptyStrings (.arr [.str "x"]) = true ∧
    mkEmptyIssue "f" "root.sectionsX" ∈ auditUnit "f" sectionsXDoc := by
  refine ⟨rfl, rfl, rfl, rfl, rfl, by decide⟩
